import Mathlib

/-!
Verification of the reverse single-source Dijkstra ambulance-dispatch engine
(src/Djikastra.py).  The Python program is shallowly embedded: dictionaries
become association lists over `String` keys, floats become `ℚ`,
`float('inf')` becomes `⊤ : WithTop ℚ`, and the `heapq` priority queue
becomes a list popped at its minimum under the lexicographic
(priority, node-identifier) order used by Python tuple comparison.
-/

namespace AmbulanceDispatch

/-- Embedding of the `it_risk` sub-dictionary of an edge payload. -/
structure ItRisk where
  network : ℚ
  gps : ℚ
  data : ℚ
  deriving DecidableEq, Repr

/-- Embedding of one edge payload: `{'time': t, 'cost': c, 'it_risk': {...}}`. -/
structure EdgeAttr where
  time : ℚ
  cost : ℚ
  it_risk : ItRisk
  deriving DecidableEq, Repr

/-- A graph is the Python dict-of-dicts `Dict[str, Dict[str, Dict]]`,
embedded as an insertion-ordered association list. -/
abbrev Graph := List (String × List (String × EdgeAttr))

/-- Association-list lookup, mirroring Python dict access (first matching key). -/
def alookup (k : String) : List (String × β) → Option β
  | [] => none
  | p :: rest => if k = p.1 then some p.2 else alookup k rest

/-- Forward-edge lookup `u in G and v in G[u]`, returning the payload. -/
def lookupEdge (G : Graph) (u v : String) : Option EdgeAttr :=
  match alookup u G with
  | some ns => alookup v ns
  | none => none

/-- Well-formedness inherited from Python dicts: outer keys are distinct and
each inner neighbour dict has distinct keys. -/
def GraphWF (G : Graph) : Prop :=
  (G.map Prod.fst).Nodup ∧ ∀ p ∈ G, (p.2.map Prod.fst).Nodup

/-- The derived vertex set `_get_all_nodes` (and the vertex collection pass of
`_reverse_graph`): every node appearing as either endpoint of any edge. -/
def allNodes (G : Graph) : List String :=
  (G.map Prod.fst ++ G.flatMap (fun p => p.2.map Prod.fst)).dedup

/-- The incoming edges of `v`, i.e. the inner dict `G_prime[v]` built by
`_reverse_graph`: one entry `(u, attributes)` for every edge `u → v` of `G`,
in the order the construction loop scans `G`. -/
def reverseNeighbors (G : Graph) (v : String) : List (String × EdgeAttr) :=
  G.flatMap (fun p => (p.2.filter (fun q => q.1 == v)).map (fun q => (p.1, q.2)))

/-- Embedding of `_reverse_graph`: every derived vertex becomes a key, and
edge `(u,v,w)` of `G` yields edge `(v,u,w)`. -/
def reverse_graph (G : Graph) : Graph :=
  (allNodes G).map (fun v => (v, reverseNeighbors G v))

/-- AHP time weight (61.9%). -/
def w_T : ℚ := 619/1000

/-- AHP IT-risk weight (28.4%). -/
def w_R : ℚ := 284/1000

/-- AHP cost weight (9.6%). -/
def w_C : ℚ := 96/1000

/-- Network-reliability sub-weight. -/
def v_net : ℚ := 623/1000

/-- GPS-accuracy sub-weight. -/
def v_gps : ℚ := 239/1000

/-- Data-integrity sub-weight. -/
def v_data : ℚ := 137/1000

/-- Embedding of `_calculate_composite_weight`. -/
def calculate_composite_weight (a : EdgeAttr) : ℚ :=
  w_T * a.time +
    w_R * (v_net * a.it_risk.network + v_gps * a.it_risk.gps + v_data * a.it_risk.data) +
    w_C * a.cost

/-- The record returned by `_calculate_route_metrics`. -/
structure RouteMetrics where
  travel_time : ℚ
  total_cost : ℚ
  it_network : ℚ
  it_gps : ℚ
  it_data : ℚ
  deriving DecidableEq, Repr

/-- All-zero accumulators, the initial state of `_calculate_route_metrics`. -/
def zeroMetrics : RouteMetrics := ⟨0, 0, 0, 0, 0⟩

/-- Pointwise sum of metric accumulators. -/
def addMetrics (m1 m2 : RouteMetrics) : RouteMetrics :=
  ⟨m1.travel_time + m2.travel_time, m1.total_cost + m2.total_cost,
   m1.it_network + m2.it_network, m1.it_gps + m2.it_gps, m1.it_data + m2.it_data⟩

/-- Contribution of one consecutive route pair `(u, v)` to the accumulators of
`_calculate_route_metrics`: the loop body when the forward edge exists, and
zero (the segment is skipped) when it does not. -/
def segContribution (G : Graph) (u v : String) : RouteMetrics :=
  match lookupEdge G u v with
  | some e =>
      ⟨e.time, e.cost, w_R * v_net * e.it_risk.network,
       w_R * v_gps * e.it_risk.gps, w_R * v_data * e.it_risk.data⟩
  | none => zeroMetrics

/-- Embedding of `_calculate_route_metrics`: accumulate over the consecutive
pairs of the route (the Python loop over `range(len(route) - 1)`). -/
def calculate_route_metrics (G : Graph) : List String → RouteMetrics
  | u :: v :: rest => addMetrics (segContribution G u v) (calculate_route_metrics G (v :: rest))
  | _ => zeroMetrics

/-- Search state of one `find_optimal_dispatch` invocation: the dicts `λ` and
`pred` (total functions defaulting to ∞ / `None`), the `visited` set, the
insertion-ordered `found_hospitals` dict and the priority queue `Q`. -/
structure DijkstraState where
  lam : String → WithTop ℚ
  pred : String → Option String
  visited : List String
  found : List (String × WithTop ℚ)
  queue : List (ℚ × String)

/-- Initial search state: `λ[destination] = 0`, all other distances ∞,
all predecessors `None`, `Q = {(0, destination)}`. -/
def initState (destination : String) : DijkstraState :=
  { lam := fun v => if v = destination then ((0 : ℚ) : WithTop ℚ) else ⊤
  , pred := fun _ => none
  , visited := []
  , found := []
  , queue := [((0 : ℚ), destination)] }

/-- Python tuple comparison on heap entries `(tentative distance, node)`:
primary key the distance, secondary key the node identifier. -/
def entryLt (a b : ℚ × String) : Prop :=
  a.1 < b.1 ∨ (a.1 = b.1 ∧ a.2 < b.2)

instance : DecidablePred (fun p : (ℚ × String) × (ℚ × String) => entryLt p.1 p.2) :=
  fun p => by unfold entryLt; infer_instance

instance (a b : ℚ × String) : Decidable (entryLt a b) := by
  unfold entryLt; infer_instance

/-- Minimum entry of a queue under `entryLt` (what `heapq.heappop` returns). -/
def findMin : List (ℚ × String) → Option (ℚ × String)
  | [] => none
  | x :: xs =>
      match findMin xs with
      | none => some x
      | some m => some (if entryLt m x then m else x)

/-- Remove the first occurrence of an entry from the queue. -/
def eraseEntry : List (ℚ × String) → (ℚ × String) → List (ℚ × String)
  | [], _ => []
  | x :: xs, e => if x = e then xs else x :: eraseEntry xs e

/-- Pop the minimum entry, removing one occurrence of it from the queue. -/
def popMin (Q : List (ℚ × String)) : Option ((ℚ × String) × List (ℚ × String)) :=
  match findMin Q with
  | none => none
  | some m => some (m, eraseEntry Q m)

/-- One relaxation of the inner loop of `find_optimal_dispatch`: skip visited
neighbours, otherwise compare `λ_k + w` with `λ[neighbor]` and on improvement
update `λ`, `pred` and push the new entry. -/
def relaxOne (lam_k : ℚ) (k : String) (s : DijkstraState) (nb : String × EdgeAttr) :
    DijkstraState :=
  if nb.1 ∈ s.visited then s
  else if ((lam_k + calculate_composite_weight nb.2 : ℚ) : WithTop ℚ) < s.lam nb.1 then
    { s with lam := Function.update s.lam nb.1
               ((lam_k + calculate_composite_weight nb.2 : ℚ) : WithTop ℚ)
           , pred := Function.update s.pred nb.1 (some k)
           , queue := s.queue ++ [(lam_k + calculate_composite_weight nb.2, nb.1)] }
  else s

/-- The neighbour-exploration loop over `G_prime.get(k, {}).items()`. -/
def relaxNeighbors (lam_k : ℚ) (k : String) (neighbors : List (String × EdgeAttr))
    (s : DijkstraState) : DijkstraState :=
  neighbors.foldl (relaxOne lam_k k) s

/-- One iteration body of the main loop, after popping `(p, k)` leaving `rest`:
the staleness/visited guard, marking visited, recording a found hospital and
relaxing the reversed-graph neighbours. -/
def dijkstraStep (Gp : Graph) (hospitals : List String) (s : DijkstraState)
    (p : ℚ) (k : String) (rest : List (ℚ × String)) : DijkstraState :=
  if (p : WithTop ℚ) > s.lam k ∨ k ∈ s.visited then { s with queue := rest }
  else
    relaxNeighbors p k ((alookup k Gp).getD [])
      (if k ∈ hospitals ∧ k ∉ s.found.map Prod.fst then
        { s with queue := rest, visited := k :: s.visited, found := s.found ++ [(k, s.lam k)] }
      else { s with queue := rest, visited := k :: s.visited })

/-- The `while Q:` loop, fuelled; the fuel computed by `searchFuel` below is
proved sufficient to drain the queue. -/
def dijkstraLoop (Gp : Graph) (hospitals : List String) : Nat → DijkstraState → DijkstraState
  | 0, s => s
  | fuel + 1, s =>
      match popMin s.queue with
      | none => s
      | some (e, rest) => dijkstraLoop Gp hospitals fuel (dijkstraStep Gp hospitals s e.1 e.2 rest)

/-- Out-degree of `v` in an adjacency list. -/
def nodeDeg (Gp : Graph) (v : String) : Nat := ((alookup v Gp).getD []).length

/-- Nodes that can ever enter the queue: the start node and every neighbour key. -/
def relevantNodes (Gp : Graph) (d : String) : List String :=
  (d :: Gp.flatMap (fun p => p.2.map Prod.fst)).dedup

/-- Termination potential: queue length plus, for every relevant unvisited
node, its out-degree plus one. -/
def potential (Gp : Graph) (d : String) (s : DijkstraState) : Nat :=
  s.queue.length +
    (((relevantNodes Gp d).filter (fun v => decide (v ∉ s.visited))).map
      (fun v => nodeDeg Gp v + 1)).sum

/-- Fuel sufficient for the whole search, the initial potential. -/
def searchFuel (Gp : Graph) (d : String) : Nat := potential Gp d (initState d)

/-- Fuelled predecessor-chain walk (`while current is not None`). -/
def predChain (pr : String → Option String) : Nat → String → List String
  | 0, _ => []
  | n + 1, cur =>
      cur ::
        (match pr cur with
         | none => []
         | some nxt => predChain pr n nxt)

/-- Fuel for predecessor chains. -/
def chainFuel (G : Graph) : Nat := (allNodes G).length + 1

/-- The search phase of `find_optimal_dispatch`: Dijkstra over the reversed
graph from the destination, run to queue exhaustion. -/
def dispatchSearch (G : Graph) (destination : String) (hospitals : List String) :
    DijkstraState :=
  dijkstraLoop (reverse_graph G) hospitals (searchFuel (reverse_graph G) destination)
    (initState destination)

/-- Python `min(keys, key=...)` over the found-hospitals dict: first key
attaining the minimal value (replacement only on strict improvement). -/
def argminFound (x : String × WithTop ℚ) (xs : List (String × WithTop ℚ)) :
    String × WithTop ℚ :=
  xs.foldl (fun best y => if y.2 < best.2 then y else best) x

/-- Per-hospital detail entry of the result dict. -/
structure HospitalDetail where
  lamH : WithTop ℚ
  route : List String
  metrics : RouteMetrics

/-- Result of `find_optimal_dispatch`: either the `{'error': ...}` dict or the
success dict with the selected hospital, its cost and route, the per-hospital
details and the diagnostic `pred` / `λ` maps. -/
inductive DispatchResult where
  | error : DispatchResult
  | ok (optimal_hospital : String) (optimal_cost : WithTop ℚ)
      (optimal_route : List String) (all_hospitals : List (String × HospitalDetail))
      (pred : String → Option String) (lam : String → WithTop ℚ) : DispatchResult

/-- Selected hospital of a result, if any. -/
def DispatchResult.selectedNode : DispatchResult → Option String
  | .error => none
  | .ok h _ _ _ _ _ => some h

/-- Optimal composite cost of a result, if any. -/
def DispatchResult.optimalCost : DispatchResult → Option (WithTop ℚ)
  | .error => none
  | .ok _ c _ _ _ _ => some c

/-- Optimal route of a result, if any. -/
def DispatchResult.optimalRoute : DispatchResult → Option (List String)
  | .error => none
  | .ok _ _ r _ _ _ => some r

/-- Per-hospital details of a result. -/
def DispatchResult.allHospitals : DispatchResult → List (String × HospitalDetail)
  | .error => []
  | .ok _ _ _ d _ _ => d

/-- Embedding of `find_optimal_dispatch`: run the search, return the error
dict when no hospital was found, otherwise select the argmin hospital,
reconstruct each route by following predecessors and *reversing* the chain
(as the source does), and attach replayed metrics. -/
def find_optimal_dispatch (G : Graph) (destination : String) (hospitals : List String) :
    DispatchResult :=
  let s := dispatchSearch G destination hospitals
  match s.found with
  | [] => DispatchResult.error
  | f :: fs =>
      let best := argminFound f fs
      let optimalRoute := (predChain s.pred (chainFuel G) best.1).reverse
      let details := (f :: fs).map (fun hf =>
        let route := (predChain s.pred (chainFuel G) hf.1).reverse
        let detail : HospitalDetail :=
          { lamH := hf.2, route := route, metrics := calculate_route_metrics G route }
        (hf.1, detail))
      DispatchResult.ok best.1 best.2 optimalRoute details s.pred s.lam

/-! Basic lemmas about association-list lookup and the priority queue. -/

theorem alookup_mem {β : Type} {k : String} {v : β} :
    ∀ {l : List (String × β)}, alookup k l = some v → (k, v) ∈ l := by
  intro l
  induction l with
  | nil => intro h; simp [alookup] at h
  | cons p rest ih =>
      intro h
      by_cases hk : k = p.1
      · simp only [alookup, if_pos hk, Option.some.injEq] at h
        exact List.mem_cons.mpr (Or.inl (Prod.ext hk h.symm))
      · simp only [alookup, if_neg hk] at h
        exact List.mem_cons_of_mem _ (ih h)

theorem alookup_eq_none_of_not_mem {β : Type} {k : String} {l : List (String × β)}
    (h : k ∉ l.map Prod.fst) : alookup k l = none := by
  induction l with
  | nil => rfl
  | cons p rest ih =>
      simp only [List.map_cons, List.mem_cons] at h
      push_neg at h
      simp [alookup, h.1, ih h.2]

theorem entryLt_irrefl (a : ℚ × String) : ¬ entryLt a a := by
  intro h
  rcases h with h | ⟨_, h⟩ <;> exact lt_irrefl _ h

theorem entryLt_trans {a b c : ℚ × String} (h1 : entryLt a b) (h2 : entryLt b c) :
    entryLt a c := by
  rcases h1 with h1 | ⟨he1, h1⟩ <;> rcases h2 with h2 | ⟨he2, h2⟩
  · exact Or.inl (lt_trans h1 h2)
  · exact Or.inl (he2 ▸ h1)
  · exact Or.inl (he1 ▸ h2)
  · exact Or.inr ⟨he1.trans he2, lt_trans h1 h2⟩

theorem entryLt_total (a b : ℚ × String) : entryLt a b ∨ a = b ∨ entryLt b a := by
  rcases lt_trichotomy a.1 b.1 with h | h | h
  · exact Or.inl (Or.inl h)
  · rcases lt_trichotomy a.2 b.2 with h2 | h2 | h2
    · exact Or.inl (Or.inr ⟨h, h2⟩)
    · exact Or.inr (Or.inl (Prod.ext h h2))
    · exact Or.inr (Or.inr (Or.inr ⟨h.symm, h2⟩))
  · exact Or.inr (Or.inr (Or.inl h))

theorem entryLt_asymm {a b : ℚ × String} (h : entryLt a b) : ¬ entryLt b a :=
  fun h2 => entryLt_irrefl _ (entryLt_trans h h2)

theorem entryLt_notLt_trans {a b c : ℚ × String} (h1 : ¬ entryLt a b) (h2 : ¬ entryLt b c) :
    ¬ entryLt a c := by
  intro hac
  rcases entryLt_total b a with h | h | h
  · exact h2 (entryLt_trans h hac)
  · exact h2 (h ▸ hac)
  · exact h1 h

theorem findMin_eq_none : ∀ {Q : List (ℚ × String)}, findMin Q = none → Q = [] := by
  intro Q
  cases Q with
  | nil => intro _; rfl
  | cons x xs =>
      intro h
      cases hx : findMin xs <;> simp [findMin, hx] at h

theorem findMin_mem : ∀ {Q : List (ℚ × String)} {m : ℚ × String},
    findMin Q = some m → m ∈ Q := by
  intro Q
  induction Q with
  | nil => intro m h; simp [findMin] at h
  | cons x xs ih =>
      intro m h
      cases hx : findMin xs with
      | none => simp [findMin, hx] at h; simp [h]
      | some m' =>
          simp only [findMin, hx] at h
          by_cases hlt : entryLt m' x
          · simp only [if_pos hlt, Option.some.injEq] at h
            exact List.mem_cons_of_mem _ (h ▸ ih hx)
          · simp only [if_neg hlt, Option.some.injEq] at h
            simp [← h]

theorem findMin_not_lt : ∀ {Q : List (ℚ × String)} {m : ℚ × String},
    findMin Q = some m → ∀ x ∈ Q, ¬ entryLt x m := by
  intro Q
  induction Q with
  | nil => intro m h; simp [findMin] at h
  | cons x xs ih =>
      intro m h y hy
      cases hx : findMin xs with
      | none =>
          have hxs : xs = [] := findMin_eq_none hx
          subst hxs
          simp only [findMin, Option.some.injEq] at h
          simp only [List.mem_singleton] at hy
          subst hy
          exact h ▸ entryLt_irrefl y
      | some m' =>
          simp only [findMin, hx, Option.some.injEq] at h
          rcases List.mem_cons.mp hy with rfl | hys
          · by_cases hlt : entryLt m' y
            · rw [if_pos hlt] at h
              exact h ▸ entryLt_asymm hlt
            · rw [if_neg hlt] at h
              exact h ▸ entryLt_irrefl y
          · have hym := ih hx y hys
            by_cases hlt : entryLt m' x
            · rw [if_pos hlt] at h
              exact h ▸ hym
            · rw [if_neg hlt] at h
              exact h ▸ entryLt_notLt_trans hym hlt

theorem eraseEntry_perm : ∀ {Q : List (ℚ × String)} {e : ℚ × String},
    e ∈ Q → Q.Perm (e :: eraseEntry Q e) := by
  intro Q
  induction Q with
  | nil => intro e h; simp at h
  | cons x xs ih =>
      intro e h
      by_cases hx : x = e
      · subst hx
        simp [eraseEntry]
      · rcases List.mem_cons.mp h with rfl | hmem
        · exact absurd rfl hx
        · simp only [eraseEntry, if_neg hx]
          exact (List.perm_cons x).mpr (ih hmem) |>.trans (List.Perm.swap e x _)

theorem mem_of_mem_eraseEntry : ∀ {Q : List (ℚ × String)} {e x : ℚ × String},
    x ∈ eraseEntry Q e → x ∈ Q := by
  intro Q
  induction Q with
  | nil => intro e x h; simp [eraseEntry] at h
  | cons y ys ih =>
      intro e x h
      simp only [eraseEntry] at h
      by_cases hy : y = e
      · rw [if_pos hy] at h
        exact List.mem_cons_of_mem _ h
      · rw [if_neg hy] at h
        rcases List.mem_cons.mp h with rfl | hmem
        · exact List.mem_cons_self _ _
        · exact List.mem_cons_of_mem _ (ih hmem)

theorem mem_eraseEntry_of_ne : ∀ {Q : List (ℚ × String)} {e x : ℚ × String},
    x ∈ Q → x ≠ e → x ∈ eraseEntry Q e := by
  intro Q
  induction Q with
  | nil => intro e x h; simp at h
  | cons y ys ih =>
      intro e x h hne
      simp only [eraseEntry]
      by_cases hy : y = e
      · rw [if_pos hy]
        rcases List.mem_cons.mp h with rfl | hmem
        · exact absurd hy hne
        · exact hmem
      · rw [if_neg hy]
        rcases List.mem_cons.mp h with rfl | hmem
        · exact List.mem_cons_self _ _
        · exact List.mem_cons_of_mem _ (ih hmem hne)

theorem eraseEntry_length : ∀ {Q : List (ℚ × String)} {e : ℚ × String},
    e ∈ Q → (eraseEntry Q e).length + 1 = Q.length := by
  intro Q
  induction Q with
  | nil => intro e h; simp at h
  | cons y ys ih =>
      intro e h
      simp only [eraseEntry]
      by_cases hy : y = e
      · rw [if_pos hy]; simp
      · rw [if_neg hy]
        rcases List.mem_cons.mp h with rfl | hmem
        · exact absurd rfl (fun hc => hy hc.symm)
        · simp only [List.length_cons]
          rw [← ih hmem]

theorem popMin_spec {Q : List (ℚ × String)} {e : ℚ × String} {rest : List (ℚ × String)}
    (h : popMin Q = some (e, rest)) :
    e ∈ Q ∧ rest = eraseEntry Q e ∧ ∀ x ∈ Q, ¬ entryLt x e := by
  unfold popMin at h
  cases hm : findMin Q with
  | none => rw [hm] at h; exact absurd h (by simp)
  | some m =>
      rw [hm] at h
      simp only [Option.some.injEq, Prod.mk.injEq] at h
      obtain ⟨rfl, rfl⟩ := h
      exact ⟨findMin_mem hm, rfl, findMin_not_lt hm⟩

theorem popMin_eq_none {Q : List (ℚ × String)} (h : popMin Q = none) : Q = [] := by
  unfold popMin at h
  cases hm : findMin Q with
  | none => exact findMin_eq_none hm
  | some m => rw [hm] at h; exact absurd h (by simp)

theorem mem_of_mem_popMin_rest {Q : List (ℚ × String)} {e x : ℚ × String}
    {rest : List (ℚ × String)} (h : popMin Q = some (e, rest)) (hx : x ∈ rest) : x ∈ Q := by
  obtain ⟨-, hrest, -⟩ := popMin_spec h
  exact mem_of_mem_eraseEntry (hrest ▸ hx)

theorem mem_popMin_rest_of_ne {Q : List (ℚ × String)} {e x : ℚ × String}
    {rest : List (ℚ × String)} (h : popMin Q = some (e, rest)) (hx : x ∈ Q) (hne : x ≠ e) :
    x ∈ rest := by
  obtain ⟨-, hrest, -⟩ := popMin_spec h
  exact hrest ▸ mem_eraseEntry_of_ne hx hne

theorem popMin_rest_length {Q : List (ℚ × String)} {e : ℚ × String}
    {rest : List (ℚ × String)} (h : popMin Q = some (e, rest)) :
    rest.length + 1 = Q.length := by
  obtain ⟨hmem, hrest, -⟩ := popMin_spec h
  exact hrest ▸ eraseEntry_length hmem

/-! Walks, reachability and non-negativity. -/

/-- Edge membership in an adjacency-list graph (as the relaxation loop sees it). -/
def EdgeIn (Gp : Graph) (u v : String) (a : EdgeAttr) : Prop :=
  ∃ ns, alookup u Gp = some ns ∧ (v, a) ∈ ns

/-- A walk from `d` to a node of the stated accumulated composite cost. -/
inductive ReachesAt (Gp : Graph) (d : String) : String → ℚ → Prop where
  | base : ReachesAt Gp d d 0
  | step {u v : String} {c : ℚ} {a : EdgeAttr} :
      ReachesAt Gp d u c → EdgeIn Gp u v a →
      ReachesAt Gp d v (c + calculate_composite_weight a)

/-- Reachability from `d` in an adjacency-list graph. -/
def ReachableR (Gp : Graph) (d v : String) : Prop := ∃ c, ReachesAt Gp d v c

/-- All numeric fields of a payload are non-negative. -/
def NonnegAttr (a : EdgeAttr) : Prop :=
  0 ≤ a.time ∧ 0 ≤ a.cost ∧ 0 ≤ a.it_risk.network ∧ 0 ≤ a.it_risk.gps ∧ 0 ≤ a.it_risk.data

/-- Every payload of the graph is non-negative. -/
def NonnegGraph (G : Graph) : Prop := ∀ p ∈ G, ∀ q ∈ p.2, NonnegAttr q.2

instance : DecidablePred NonnegAttr := fun a => by
  unfold NonnegAttr
  infer_instance

instance (G : Graph) : Decidable (NonnegGraph G) := by
  unfold NonnegGraph
  infer_instance

instance (G : Graph) : Decidable (GraphWF G) := by
  unfold GraphWF
  infer_instance

/-- Every edge reachable by the search has non-negative composite weight. -/
def WeightNonneg (Gp : Graph) : Prop :=
  ∀ u v a, EdgeIn Gp u v a → 0 ≤ calculate_composite_weight a

theorem weight_nonneg_of_attr {a : EdgeAttr} (h : NonnegAttr a) :
    0 ≤ calculate_composite_weight a := by
  obtain ⟨h1, h2, h3, h4, h5⟩ := h
  unfold calculate_composite_weight w_T w_R w_C v_net v_gps v_data
  have c1 : (0:ℚ) ≤ 619/1000 * a.time := by positivity
  have c2 : (0:ℚ) ≤ 623/1000 * a.it_risk.network := by positivity
  have c3 : (0:ℚ) ≤ 239/1000 * a.it_risk.gps := by positivity
  have c4 : (0:ℚ) ≤ 137/1000 * a.it_risk.data := by positivity
  have c5 : (0:ℚ) ≤ 96/1000 * a.cost := by positivity
  have c6 : (0:ℚ) ≤ 284/1000 * (623/1000 * a.it_risk.network + 239/1000 * a.it_risk.gps +
      137/1000 * a.it_risk.data) := by positivity
  linarith

theorem reachesAt_nonneg {Gp : Graph} {d v : String} {c : ℚ} (hw : WeightNonneg Gp)
    (h : ReachesAt Gp d v c) : 0 ≤ c := by
  induction h with
  | base => exact le_refl 0
  | step hr he ih => exact add_nonneg ih (hw _ _ _ he)

/-! Structure of the reversed graph. -/

theorem alookup_map_eq {f : String → List (String × EdgeAttr)} :
    ∀ {L : List String} {v : String} {ns : List (String × EdgeAttr)},
      alookup v (L.map fun x => (x, f x)) = some ns → ns = f v := by
  intro L
  induction L with
  | nil => intro v ns h; simp [alookup] at h
  | cons x xs ih =>
      intro v ns h
      by_cases hv : v = x
      · simp only [List.map_cons, alookup, if_pos hv, Option.some.injEq] at h
        rw [← h, hv]
      · simp only [List.map_cons, alookup, if_neg hv] at h
        exact ih h

theorem alookup_map_self {f : String → List (String × EdgeAttr)} :
    ∀ {L : List String} {v : String}, v ∈ L →
      alookup v (L.map fun x => (x, f x)) = some (f v) := by
  intro L
  induction L with
  | nil => intro v h; simp at h
  | cons x xs ih =>
      intro v h
      by_cases hv : v = x
      · simp [alookup, hv]
      · rcases List.mem_cons.mp h with rfl | hmem
        · exact absurd rfl hv
        · simp [alookup, hv, ih hmem]

theorem mem_reverseNeighbors {G : Graph} {v u : String} {a : EdgeAttr} :
    (u, a) ∈ reverseNeighbors G v ↔ ∃ ns, (u, ns) ∈ G ∧ (v, a) ∈ ns := by
  unfold reverseNeighbors
  constructor
  · intro h
    simp only [List.mem_flatMap, List.mem_map, List.mem_filter] at h
    obtain ⟨p, hp, q, ⟨hq, hqv⟩, heq⟩ := h
    obtain ⟨rfl, rfl⟩ := Prod.mk.injEq .. ▸ heq
    refine ⟨p.2, ?_, ?_⟩
    · exact (Prod.mk.eta (p := p)) ▸ hp
    · have : q.1 = v := by simpa using hqv
      exact this ▸ (Prod.mk.eta (p := q)) ▸ hq
  · intro ⟨ns, hns, ha⟩
    simp only [List.mem_flatMap, List.mem_map, List.mem_filter]
    exact ⟨(u, ns), hns, (v, a), ⟨ha, by simp⟩, rfl⟩

theorem edgeIn_reverse {G : Graph} {u v : String} {a : EdgeAttr}
    (h : EdgeIn (reverse_graph G) u v a) : ∃ ns, (v, ns) ∈ G ∧ (u, a) ∈ ns := by
  obtain ⟨ns, hlk, hmem⟩ := h
  have := alookup_map_eq (f := reverseNeighbors G) hlk
  subst this
  exact mem_reverseNeighbors.mp hmem

theorem reverse_weight_nonneg {G : Graph} (h : NonnegGraph G) :
    WeightNonneg (reverse_graph G) := by
  intro u v a he
  obtain ⟨ns, hns, ha⟩ := edgeIn_reverse he
  exact weight_nonneg_of_attr (h _ hns _ ha)

/-! Metrics decomposition. -/

theorem calculate_route_metrics_eq_fold (G : Graph) :
    ∀ l : List String, calculate_route_metrics G l =
      ((l.zip l.tail).map (fun q => segContribution G q.1 q.2)).foldr addMetrics zeroMetrics := by
  intro l
  induction l with
  | nil => rfl
  | cons u rest ih =>
      cases rest with
      | nil => rfl
      | cons v rest2 =>
          simp only [calculate_route_metrics, List.tail_cons, List.zip_cons_cons,
            List.map_cons, List.foldr_cons]
          rw [ih]
          rfl

/-! The search invariant. -/

/-- Basic invariant of the main Dijkstra loop (independent of weight signs):
queue entries are relevant nodes carrying walk costs that over-approximate `λ`,
every finite `λ` is a walk cost, visited nodes have finite `λ`, edges out of
the visited region have been relaxed, every finite unvisited node has a live
queue entry at exactly its `λ`, `pred` is only set at finite nodes, the found
list records visited hospitals at their `λ`, and `λ[d]` never exceeds 0. -/
structure InvB (Gp : Graph) (d : String) (H : List String) (s : DijkstraState) : Prop where
  queue_relevant : ∀ e ∈ s.queue, e.2 ∈ relevantNodes Gp d
  queue_sound : ∀ e ∈ s.queue, s.lam e.2 ≤ ((e.1 : ℚ) : WithTop ℚ)
  queue_path : ∀ e ∈ s.queue, ReachesAt Gp d e.2 e.1
  lam_path : ∀ v : String, ∀ q : ℚ, s.lam v = ((q : ℚ) : WithTop ℚ) → ReachesAt Gp d v q
  visited_fin : ∀ v ∈ s.visited, s.lam v ≠ ⊤
  frontier : ∀ u ∈ s.visited, ∀ v a, EdgeIn Gp u v a → v ∉ s.visited →
      ∀ q : ℚ, s.lam u = ((q : ℚ) : WithTop ℚ) →
        s.lam v ≤ ((q + calculate_composite_weight a : ℚ) : WithTop ℚ)
  queue_cover : ∀ v : String, v ∉ s.visited → s.lam v ≠ ⊤ →
      ∃ pv : ℚ, s.lam v = ((pv : ℚ) : WithTop ℚ) ∧ (pv, v) ∈ s.queue
  pred_fin : ∀ v : String, s.pred v ≠ none → s.lam v ≠ ⊤
  found_spec : ∀ x ∈ s.found, x.1 ∈ H ∧ x.1 ∈ s.visited ∧ x.2 = s.lam x.1
  visited_found : ∀ v ∈ s.visited, v ∈ H → v ∈ s.found.map Prod.fst
  lam_d : s.lam d ≤ ((0 : ℚ) : WithTop ℚ)

/-- Either a relaxation leaves the state unchanged, or the neighbour was
unvisited, strictly improved, and all three components were updated. -/
theorem relaxOne_eq_or (p : ℚ) (k : String) (s : DijkstraState) (nb : String × EdgeAttr) :
    relaxOne p k s nb = s ∨
    (nb.1 ∉ s.visited ∧
      ((p + calculate_composite_weight nb.2 : ℚ) : WithTop ℚ) < s.lam nb.1 ∧
      relaxOne p k s nb =
        { s with lam := Function.update s.lam nb.1
                   ((p + calculate_composite_weight nb.2 : ℚ) : WithTop ℚ)
               , pred := Function.update s.pred nb.1 (some k)
               , queue := s.queue ++ [(p + calculate_composite_weight nb.2, nb.1)] }) := by
  unfold relaxOne
  by_cases h1 : nb.1 ∈ s.visited
  · exact Or.inl (if_pos h1)
  · by_cases h2 : ((p + calculate_composite_weight nb.2 : ℚ) : WithTop ℚ) < s.lam nb.1
    · exact Or.inr ⟨h1, h2, by rw [if_neg h1, if_pos h2]⟩
    · exact Or.inl (by rw [if_neg h1, if_neg h2])

theorem relaxOne_visited_eq (p : ℚ) (k : String) (s : DijkstraState) (nb : String × EdgeAttr) :
    (relaxOne p k s nb).visited = s.visited := by
  rcases relaxOne_eq_or p k s nb with h | ⟨-, -, h⟩ <;> rw [h]

theorem relaxOne_found_eq (p : ℚ) (k : String) (s : DijkstraState) (nb : String × EdgeAttr) :
    (relaxOne p k s nb).found = s.found := by
  rcases relaxOne_eq_or p k s nb with h | ⟨-, -, h⟩ <;> rw [h]

theorem relaxOne_lam_le (p : ℚ) (k : String) (s : DijkstraState) (nb : String × EdgeAttr)
    (v : String) : (relaxOne p k s nb).lam v ≤ s.lam v := by
  rcases relaxOne_eq_or p k s nb with h | ⟨-, hlt, h⟩
  · rw [h]
  · rw [h]
    dsimp only
    rw [Function.update_apply]
    by_cases hv : v = nb.1
    · rw [if_pos hv, hv]
      exact le_of_lt hlt
    · rw [if_neg hv]

theorem relaxOne_lam_of_not_target (p : ℚ) (k : String) (s : DijkstraState)
    (nb : String × EdgeAttr) (v : String) (hv : v ≠ nb.1) :
    (relaxOne p k s nb).lam v = s.lam v := by
  rcases relaxOne_eq_or p k s nb with h | ⟨-, -, h⟩
  · rw [h]
  · rw [h]
    dsimp only
    rw [Function.update_apply, if_neg hv]

theorem relaxOne_lam_of_visited (p : ℚ) (k : String) (s : DijkstraState)
    (nb : String × EdgeAttr) (v : String) (hv : v ∈ s.visited) :
    (relaxOne p k s nb).lam v = s.lam v := by
  rcases relaxOne_eq_or p k s nb with h | ⟨hnb, -, h⟩
  · rw [h]
  · rw [h]
    dsimp only
    rw [Function.update_apply, if_neg (fun hc : v = nb.1 => hnb (hc ▸ hv))]

theorem relaxOne_pred_of_visited (p : ℚ) (k : String) (s : DijkstraState)
    (nb : String × EdgeAttr) (v : String) (hv : v ∈ s.visited) :
    (relaxOne p k s nb).pred v = s.pred v := by
  rcases relaxOne_eq_or p k s nb with h | ⟨hnb, -, h⟩
  · rw [h]
  · rw [h]
    dsimp only
    rw [Function.update_apply, if_neg (fun hc : v = nb.1 => hnb (hc ▸ hv))]

theorem relaxOne_queue_mono (p : ℚ) (k : String) (s : DijkstraState) (nb : String × EdgeAttr)
    (e : ℚ × String) (he : e ∈ s.queue) : e ∈ (relaxOne p k s nb).queue := by
  rcases relaxOne_eq_or p k s nb with h | ⟨-, -, h⟩
  · rw [h]; exact he
  · rw [h]
    exact List.mem_append_left _ he

theorem relaxOne_queue_len (p : ℚ) (k : String) (s : DijkstraState) (nb : String × EdgeAttr) :
    (relaxOne p k s nb).queue.length ≤ s.queue.length + 1 := by
  rcases relaxOne_eq_or p k s nb with h | ⟨-, -, h⟩
  · rw [h]; exact Nat.le_succ _
  · rw [h]
    simp

theorem relaxOne_new_bound (p : ℚ) (k : String) (s : DijkstraState) (nb : String × EdgeAttr)
    (hnb : nb.1 ∉ s.visited) :
    (relaxOne p k s nb).lam nb.1 ≤ ((p + calculate_composite_weight nb.2 : ℚ) : WithTop ℚ) := by
  unfold relaxOne
  rw [if_neg hnb]
  by_cases h2 : ((p + calculate_composite_weight nb.2 : ℚ) : WithTop ℚ) < s.lam nb.1
  · rw [if_pos h2]
    dsimp only
    rw [Function.update_apply, if_pos rfl]
  · rw [if_neg h2]
    exact le_of_not_lt h2

/-! Fold-level lemmas about the neighbour-relaxation loop. -/

theorem relax_visited_eq (p : ℚ) (k : String) :
    ∀ (ns : List (String × EdgeAttr)) (s : DijkstraState),
      (relaxNeighbors p k ns s).visited = s.visited := by
  intro ns
  induction ns with
  | nil => intro s; rfl
  | cons nb rest ih =>
      intro s
      show (relaxNeighbors p k rest (relaxOne p k s nb)).visited = s.visited
      rw [ih, relaxOne_visited_eq]

theorem relax_found_eq (p : ℚ) (k : String) :
    ∀ (ns : List (String × EdgeAttr)) (s : DijkstraState),
      (relaxNeighbors p k ns s).found = s.found := by
  intro ns
  induction ns with
  | nil => intro s; rfl
  | cons nb rest ih =>
      intro s
      show (relaxNeighbors p k rest (relaxOne p k s nb)).found = s.found
      rw [ih, relaxOne_found_eq]

theorem relax_lam_le (p : ℚ) (k : String) :
    ∀ (ns : List (String × EdgeAttr)) (s : DijkstraState) (v : String),
      (relaxNeighbors p k ns s).lam v ≤ s.lam v := by
  intro ns
  induction ns with
  | nil => intro s v; exact le_refl _
  | cons nb rest ih =>
      intro s v
      exact le_trans (ih (relaxOne p k s nb) v) (relaxOne_lam_le p k s nb v)

theorem relax_lam_of_visited (p : ℚ) (k : String) :
    ∀ (ns : List (String × EdgeAttr)) (s : DijkstraState) (v : String), v ∈ s.visited →
      (relaxNeighbors p k ns s).lam v = s.lam v := by
  intro ns
  induction ns with
  | nil => intro s v _; rfl
  | cons nb rest ih =>
      intro s v hv
      show (relaxNeighbors p k rest (relaxOne p k s nb)).lam v = s.lam v
      rw [ih (relaxOne p k s nb) v ((relaxOne_visited_eq p k s nb).symm ▸ hv),
        relaxOne_lam_of_visited p k s nb v hv]

theorem relax_pred_of_visited (p : ℚ) (k : String) :
    ∀ (ns : List (String × EdgeAttr)) (s : DijkstraState) (v : String), v ∈ s.visited →
      (relaxNeighbors p k ns s).pred v = s.pred v := by
  intro ns
  induction ns with
  | nil => intro s v _; rfl
  | cons nb rest ih =>
      intro s v hv
      show (relaxNeighbors p k rest (relaxOne p k s nb)).pred v = s.pred v
      rw [ih (relaxOne p k s nb) v ((relaxOne_visited_eq p k s nb).symm ▸ hv),
        relaxOne_pred_of_visited p k s nb v hv]

theorem relax_queue_mono (p : ℚ) (k : String) :
    ∀ (ns : List (String × EdgeAttr)) (s : DijkstraState) (e : ℚ × String), e ∈ s.queue →
      e ∈ (relaxNeighbors p k ns s).queue := by
  intro ns
  induction ns with
  | nil => intro s e he; exact he
  | cons nb rest ih =>
      intro s e he
      exact ih (relaxOne p k s nb) e (relaxOne_queue_mono p k s nb e he)

theorem relax_queue_len (p : ℚ) (k : String) :
    ∀ (ns : List (String × EdgeAttr)) (s : DijkstraState),
      (relaxNeighbors p k ns s).queue.length ≤ s.queue.length + ns.length := by
  intro ns
  induction ns with
  | nil => intro s; exact Nat.le_refl _
  | cons nb rest ih =>
      intro s
      calc (relaxNeighbors p k rest (relaxOne p k s nb)).queue.length
          ≤ (relaxOne p k s nb).queue.length + rest.length := ih _
        _ ≤ s.queue.length + 1 + rest.length :=
            Nat.add_le_add_right (relaxOne_queue_len p k s nb) _
        _ = s.queue.length + (nb :: rest).length := by simp; omega

theorem relax_new_bound (p : ℚ) (k : String) :
    ∀ (ns : List (String × EdgeAttr)) (s : DijkstraState) (nb : String × EdgeAttr),
      nb ∈ ns → nb.1 ∉ s.visited →
      (relaxNeighbors p k ns s).lam nb.1 ≤
        ((p + calculate_composite_weight nb.2 : ℚ) : WithTop ℚ) := by
  intro ns
  induction ns with
  | nil => intro s nb h; simp at h
  | cons x rest ih =>
      intro s nb hmem hnb
      rcases List.mem_cons.mp hmem with rfl | hmem2
      · exact le_trans (relax_lam_le p k rest (relaxOne p k s nb) nb.1)
          (relaxOne_new_bound p k s nb hnb)
      · exact ih (relaxOne p k s x) nb hmem2 ((relaxOne_visited_eq p k s x).symm ▸ hnb)

theorem edge_target_relevant {Gp : Graph} {d u v : String} {a : EdgeAttr}
    (h : EdgeIn Gp u v a) : v ∈ relevantNodes Gp d := by
  obtain ⟨ns, hlk, hmem⟩ := h
  unfold relevantNodes
  rw [List.mem_dedup]
  refine List.mem_cons_of_mem _ ?_
  rw [List.mem_flatMap]
  exact ⟨(u, ns), alookup_mem hlk, List.mem_map.mpr ⟨(v, a), hmem, rfl⟩⟩

theorem relaxOne_queue_relevant {Gp : Graph} {d : String} {p : ℚ} {k : String}
    {s : DijkstraState} {nb : String × EdgeAttr}
    (h : ∀ e ∈ s.queue, e.2 ∈ relevantNodes Gp d) (hnb : nb.1 ∈ relevantNodes Gp d) :
    ∀ e ∈ (relaxOne p k s nb).queue, e.2 ∈ relevantNodes Gp d := by
  rcases relaxOne_eq_or p k s nb with heq | ⟨-, -, heq⟩
  · rw [heq]; exact h
  · rw [heq]
    intro e he
    rcases List.mem_append.mp he with he | he
    · exact h e he
    · simp only [List.mem_singleton] at he
      subst he
      exact hnb

theorem relaxOne_queue_sound {p : ℚ} {k : String} {s : DijkstraState} {nb : String × EdgeAttr}
    (h : ∀ e ∈ s.queue, s.lam e.2 ≤ ((e.1 : ℚ) : WithTop ℚ)) :
    ∀ e ∈ (relaxOne p k s nb).queue, (relaxOne p k s nb).lam e.2 ≤ ((e.1 : ℚ) : WithTop ℚ) := by
  intro e he
  rcases relaxOne_eq_or p k s nb with heq | ⟨-, hlt, heq⟩
  · rw [heq] at he ⊢
    exact h e he
  · rw [heq] at he ⊢
    dsimp only at he ⊢
    rcases List.mem_append.mp he with he2 | he2
    · rw [Function.update_apply]
      by_cases hv : e.2 = nb.1
      · rw [if_pos hv]
        have := h e he2
        rw [hv] at this
        exact le_trans (le_of_lt hlt) this
      · rw [if_neg hv]
        exact h e he2
    · simp only [List.mem_singleton] at he2
      subst he2
      rw [Function.update_apply, if_pos rfl]

theorem relaxOne_path_pair {Gp : Graph} {d : String} {p : ℚ} {k : String}
    {s : DijkstraState} {nb : String × EdgeAttr}
    (hq : ∀ e ∈ s.queue, ReachesAt Gp d e.2 e.1)
    (hl : ∀ v : String, ∀ q : ℚ, s.lam v = ((q : ℚ) : WithTop ℚ) → ReachesAt Gp d v q)
    (hkp : ReachesAt Gp d k p) (hedge : EdgeIn Gp k nb.1 nb.2) :
    (∀ e ∈ (relaxOne p k s nb).queue, ReachesAt Gp d e.2 e.1) ∧
    (∀ v : String, ∀ q : ℚ, (relaxOne p k s nb).lam v = ((q : ℚ) : WithTop ℚ) →
      ReachesAt Gp d v q) := by
  rcases relaxOne_eq_or p k s nb with heq | ⟨-, -, heq⟩
  · rw [heq]; exact ⟨hq, hl⟩
  · rw [heq]
    dsimp only
    constructor
    · intro e he
      rcases List.mem_append.mp he with he2 | he2
      · exact hq e he2
      · simp only [List.mem_singleton] at he2
        subst he2
        exact ReachesAt.step hkp hedge
    · intro v q hv
      rw [Function.update_apply] at hv
      by_cases hveq : v = nb.1
      · rw [if_pos hveq] at hv
        have : p + calculate_composite_weight nb.2 = q := by exact_mod_cast hv
        subst hveq
        exact this ▸ ReachesAt.step hkp hedge
      · rw [if_neg hveq] at hv
        exact hl v q hv

theorem relaxOne_cover {p : ℚ} {k : String} {s : DijkstraState} {nb : String × EdgeAttr}
    (h : ∀ v : String, v ∉ s.visited → s.lam v ≠ ⊤ →
      ∃ pv : ℚ, s.lam v = ((pv : ℚ) : WithTop ℚ) ∧ (pv, v) ∈ s.queue) :
    ∀ v : String, v ∉ (relaxOne p k s nb).visited → (relaxOne p k s nb).lam v ≠ ⊤ →
      ∃ pv : ℚ, (relaxOne p k s nb).lam v = ((pv : ℚ) : WithTop ℚ) ∧
        (pv, v) ∈ (relaxOne p k s nb).queue := by
  rcases relaxOne_eq_or p k s nb with heq | ⟨-, -, heq⟩
  · rw [heq]; exact h
  · rw [heq]
    dsimp only
    intro v hvis hfin
    by_cases hveq : v = nb.1
    · refine ⟨p + calculate_composite_weight nb.2, ?_, ?_⟩
      · rw [Function.update_apply, if_pos hveq]
      · subst hveq
        exact List.mem_append_right _ (List.mem_singleton.mpr rfl)
    · rw [Function.update_apply, if_neg hveq] at hfin ⊢
      obtain ⟨pv, hpv, hmem⟩ := h v hvis hfin
      exact ⟨pv, hpv, List.mem_append_left _ hmem⟩

theorem relaxOne_pred_fin {p : ℚ} {k : String} {s : DijkstraState} {nb : String × EdgeAttr}
    (h : ∀ v : String, s.pred v ≠ none → s.lam v ≠ ⊤) :
    ∀ v : String, (relaxOne p k s nb).pred v ≠ none → (relaxOne p k s nb).lam v ≠ ⊤ := by
  rcases relaxOne_eq_or p k s nb with heq | ⟨-, -, heq⟩
  · rw [heq]; exact h
  · rw [heq]
    dsimp only
    intro v hv
    rw [Function.update_apply] at hv ⊢
    by_cases hveq : v = nb.1
    · rw [if_pos hveq]
      exact WithTop.coe_ne_top
    · rw [if_neg hveq] at hv ⊢
      exact h v hv

theorem relax_queue_relevant {Gp : Graph} {d : String} {p : ℚ} {k : String} :
    ∀ {ns : List (String × EdgeAttr)} {s : DijkstraState},
      (∀ e ∈ s.queue, e.2 ∈ relevantNodes Gp d) →
      (∀ nb ∈ ns, nb.1 ∈ relevantNodes Gp d) →
      ∀ e ∈ (relaxNeighbors p k ns s).queue, e.2 ∈ relevantNodes Gp d := by
  intro ns
  induction ns with
  | nil => intro s h _; exact h
  | cons nb rest ih =>
      intro s h hns
      exact ih (relaxOne_queue_relevant h (hns nb (List.mem_cons_self _ _)))
        (fun x hx => hns x (List.mem_cons_of_mem _ hx))

theorem relax_queue_sound {p : ℚ} {k : String} :
    ∀ {ns : List (String × EdgeAttr)} {s : DijkstraState},
      (∀ e ∈ s.queue, s.lam e.2 ≤ ((e.1 : ℚ) : WithTop ℚ)) →
      ∀ e ∈ (relaxNeighbors p k ns s).queue,
        (relaxNeighbors p k ns s).lam e.2 ≤ ((e.1 : ℚ) : WithTop ℚ) := by
  intro ns
  induction ns with
  | nil => intro s h; exact h
  | cons nb rest ih =>
      intro s h
      exact ih (relaxOne_queue_sound h)

theorem relax_path_pair {Gp : Graph} {d : String} {p : ℚ} {k : String} :
    ∀ {ns : List (String × EdgeAttr)} {s : DijkstraState},
      (∀ e ∈ s.queue, ReachesAt Gp d e.2 e.1) →
      (∀ v : String, ∀ q : ℚ, s.lam v = ((q : ℚ) : WithTop ℚ) → ReachesAt Gp d v q) →
      ReachesAt Gp d k p → (∀ nb ∈ ns, EdgeIn Gp k nb.1 nb.2) →
      (∀ e ∈ (relaxNeighbors p k ns s).queue, ReachesAt Gp d e.2 e.1) ∧
      (∀ v : String, ∀ q : ℚ, (relaxNeighbors p k ns s).lam v = ((q : ℚ) : WithTop ℚ) →
        ReachesAt Gp d v q) := by
  intro ns
  induction ns with
  | nil => intro s hq hl _ _; exact ⟨hq, hl⟩
  | cons nb rest ih =>
      intro s hq hl hkp hedges
      obtain ⟨hq2, hl2⟩ := relaxOne_path_pair hq hl hkp (hedges nb (List.mem_cons_self _ _))
      exact ih hq2 hl2 hkp (fun x hx => hedges x (List.mem_cons_of_mem _ hx))

theorem relax_cover {p : ℚ} {k : String} :
    ∀ {ns : List (String × EdgeAttr)} {s : DijkstraState},
      (∀ v : String, v ∉ s.visited → s.lam v ≠ ⊤ →
        ∃ pv : ℚ, s.lam v = ((pv : ℚ) : WithTop ℚ) ∧ (pv, v) ∈ s.queue) →
      ∀ v : String, v ∉ (relaxNeighbors p k ns s).visited →
        (relaxNeighbors p k ns s).lam v ≠ ⊤ →
        ∃ pv : ℚ, (relaxNeighbors p k ns s).lam v = ((pv : ℚ) : WithTop ℚ) ∧
          (pv, v) ∈ (relaxNeighbors p k ns s).queue := by
  intro ns
  induction ns with
  | nil => intro s h; exact h
  | cons nb rest ih =>
      intro s h
      exact ih (relaxOne_cover h)

theorem relax_pred_fin {p : ℚ} {k : String} :
    ∀ {ns : List (String × EdgeAttr)} {s : DijkstraState},
      (∀ v : String, s.pred v ≠ none → s.lam v ≠ ⊤) →
      ∀ v : String, (relaxNeighbors p k ns s).pred v ≠ none →
        (relaxNeighbors p k ns s).lam v ≠ ⊤ := by
  intro ns
  induction ns with
  | nil => intro s h; exact h
  | cons nb rest ih =>
      intro s h
      exact ih (relaxOne_pred_fin h)

theorem relax_visited_fin {p : ℚ} {k : String} {ns : List (String × EdgeAttr)}
    {s : DijkstraState} (h : ∀ v ∈ s.visited, s.lam v ≠ ⊤) :
    ∀ v ∈ (relaxNeighbors p k ns s).visited, (relaxNeighbors p k ns s).lam v ≠ ⊤ := by
  intro v hv
  rw [relax_visited_eq] at hv
  rw [relax_lam_of_visited p k ns s v hv]
  exact h v hv

/-- After visiting `k` (popped at its exact distance) and relaxing its
neighbours, the basic invariant holds again; `s2` is the state after marking
`k` visited and (possibly) recording it as a found hospital. -/
theorem visit_relax_invB {Gp : Graph} {d : String} {H : List String}
    {s s2 : DijkstraState} {p : ℚ} {k : String} {rest : List (ℚ × String)}
    (hInv : InvB Gp d H s)
    (hpk_mem : (p, k) ∈ s.queue) (hrest : rest = eraseEntry s.queue (p, k))
    (hkvis : k ∉ s.visited) (hlamk : s.lam k = ((p : ℚ) : WithTop ℚ))
    (h2lam : s2.lam = s.lam) (h2pred : s2.pred = s.pred)
    (h2vis : s2.visited = k :: s.visited) (h2queue : s2.queue = rest)
    (h2found_spec : ∀ x ∈ s2.found, x.1 ∈ H ∧ x.1 ∈ k :: s.visited ∧ x.2 = s.lam x.1)
    (h2visited_found : ∀ v ∈ k :: s.visited, v ∈ H → v ∈ s2.found.map Prod.fst) :
    InvB Gp d H (relaxNeighbors p k ((alookup k Gp).getD []) s2) := by
  have hedges : ∀ nb ∈ (alookup k Gp).getD [], EdgeIn Gp k nb.1 nb.2 := by
    intro nb hnb
    cases halk : alookup k Gp with
    | none => rw [halk] at hnb; simp at hnb
    | some ns0 =>
        rw [halk] at hnb
        exact ⟨ns0, halk, by simpa using hnb⟩
  have hrelev : ∀ nb ∈ (alookup k Gp).getD [], nb.1 ∈ relevantNodes Gp d :=
    fun nb hnb => edge_target_relevant (d := d) (hedges nb hnb)
  have hrest_sub : ∀ e ∈ rest, e ∈ s.queue := by
    intro e he
    exact mem_of_mem_eraseEntry (hrest ▸ he)
  have hkp : ReachesAt Gp d k p := hInv.queue_path (p, k) hpk_mem
  have hq2 : ∀ e ∈ s2.queue, ReachesAt Gp d e.2 e.1 := by
    intro e he
    exact hInv.queue_path e (hrest_sub e (h2queue ▸ he))
  have hl2 : ∀ v : String, ∀ q : ℚ, s2.lam v = ((q : ℚ) : WithTop ℚ) → ReachesAt Gp d v q := by
    rw [h2lam]; exact hInv.lam_path
  obtain ⟨hpath3, hlam3⟩ := relax_path_pair hq2 hl2 hkp hedges
  refine ⟨?_, ?_, hpath3, hlam3, ?_, ?_, ?_, ?_, ?_, ?_, ?_⟩
  · -- queue_relevant
    refine relax_queue_relevant ?_ hrelev
    intro e he
    exact hInv.queue_relevant e (hrest_sub e (h2queue ▸ he))
  · -- queue_sound
    refine relax_queue_sound ?_
    intro e he
    rw [h2lam]
    exact hInv.queue_sound e (hrest_sub e (h2queue ▸ he))
  · -- visited_fin
    refine relax_visited_fin ?_
    intro v hv
    rw [h2vis] at hv
    rw [h2lam]
    rcases List.mem_cons.mp hv with rfl | hv2
    · rw [hlamk]; exact WithTop.coe_ne_top
    · exact hInv.visited_fin v hv2
  · -- frontier
    intro u hu v a hedge hv q hq
    rw [relax_visited_eq, h2vis] at hu hv
    have hv_ne_k : v ≠ k := fun hc => hv (hc ▸ List.mem_cons_self _ _)
    have hv_old : v ∉ s.visited := fun hc => hv (List.mem_cons_of_mem _ hc)
    rcases List.mem_cons.mp hu with rfl | hu_old
    · -- u = k, freshly relaxed
      have hlamu : (relaxNeighbors p u ((alookup u Gp).getD []) s2).lam u = s.lam u := by
        rw [relax_lam_of_visited p u _ s2 u
          (by rw [h2vis]; exact List.mem_cons_self _ _), h2lam]
      rw [hlamu, hlamk] at hq
      have hqp : p = q := by exact_mod_cast hq
      have hmemns : (v, a) ∈ (alookup u Gp).getD [] := by
        obtain ⟨ns0, hlk, hm⟩ := hedge
        rw [hlk]
        exact hm
      have := relax_new_bound p u ((alookup u Gp).getD []) s2 (v, a) hmemns
        (by rw [h2vis]; intro hc; exact hv hc)
      exact hqp ▸ this
    · -- u previously visited
      have hlamu : (relaxNeighbors p k ((alookup k Gp).getD []) s2).lam u = s.lam u := by
        rw [relax_lam_of_visited p k _ s2 u
          (by rw [h2vis]; exact List.mem_cons_of_mem _ hu_old), h2lam]
      rw [hlamu] at hq
      have hold := hInv.frontier u hu_old v a hedge hv_old q hq
      calc (relaxNeighbors p k ((alookup k Gp).getD []) s2).lam v
          ≤ s2.lam v := relax_lam_le p k _ s2 v
        _ = s.lam v := by rw [h2lam]
        _ ≤ _ := hold
  · -- queue_cover
    refine relax_cover ?_
    intro v hv hfin
    rw [h2vis] at hv
    rw [h2lam] at hfin ⊢
    have hv_ne_k : v ≠ k := fun hc => hv (hc ▸ List.mem_cons_self _ _)
    have hv_old : v ∉ s.visited := fun hc => hv (List.mem_cons_of_mem _ hc)
    obtain ⟨pv, hpv, hmem⟩ := hInv.queue_cover v hv_old hfin
    refine ⟨pv, hpv, ?_⟩
    rw [h2queue, hrest]
    exact mem_eraseEntry_of_ne hmem (by simp [hv_ne_k])
  · -- pred_fin
    refine relax_pred_fin ?_
    rw [h2lam, h2pred]
    exact hInv.pred_fin
  · -- found_spec
    intro x hx
    rw [relax_found_eq] at hx
    obtain ⟨hxH, hxvis, hxlam⟩ := h2found_spec x hx
    refine ⟨hxH, by rw [relax_visited_eq, h2vis]; exact hxvis, ?_⟩
    rw [relax_lam_of_visited p k _ s2 x.1 (h2vis ▸ hxvis), h2lam]
    exact hxlam
  · -- visited_found
    intro v hv hvH
    rw [relax_visited_eq, h2vis] at hv
    rw [relax_found_eq]
    exact h2visited_found v hv hvH
  · -- lam_d
    calc (relaxNeighbors p k ((alookup k Gp).getD []) s2).lam d
        ≤ s2.lam d := relax_lam_le p k _ s2 d
      _ = s.lam d := by rw [h2lam]
      _ ≤ _ := hInv.lam_d

/-- One iteration of the main loop preserves the basic invariant. -/
theorem dijkstraStep_invB {Gp : Graph} {d : String} {H : List String} {s : DijkstraState}
    {p : ℚ} {k : String} {rest : List (ℚ × String)} (hInv : InvB Gp d H s)
    (hpop : popMin s.queue = some ((p, k), rest)) :
    InvB Gp d H (dijkstraStep Gp H s p k rest) := by
  obtain ⟨hpk_mem, hrest_eq, hmin⟩ := popMin_spec hpop
  unfold dijkstraStep
  by_cases hguard : ((p : ℚ) : WithTop ℚ) > s.lam k ∨ k ∈ s.visited
  · rw [if_pos hguard]
    have hrest_sub : ∀ e ∈ rest, e ∈ s.queue := by
      intro e he
      exact mem_of_mem_eraseEntry (hrest_eq ▸ he)
    refine ⟨?_, ?_, ?_, hInv.lam_path, hInv.visited_fin, hInv.frontier, ?_, hInv.pred_fin,
      hInv.found_spec, hInv.visited_found, hInv.lam_d⟩
    · exact fun e he => hInv.queue_relevant e (hrest_sub e he)
    · exact fun e he => hInv.queue_sound e (hrest_sub e he)
    · exact fun e he => hInv.queue_path e (hrest_sub e he)
    · intro v hvis hfin
      obtain ⟨pv, hpv, hmem⟩ := hInv.queue_cover v hvis hfin
      refine ⟨pv, hpv, ?_⟩
      rw [hrest_eq]
      refine mem_eraseEntry_of_ne hmem ?_
      intro hc
      obtain ⟨h1, h2⟩ := Prod.mk.injEq .. ▸ hc
      subst h2
      rcases hguard with hg | hg
      · rw [hpv, h1] at hg
        exact lt_irrefl _ hg
      · exact hvis hg
  · rw [if_neg hguard]
    push_neg at hguard
    obtain ⟨hg1, hkvis⟩ := hguard
    have hlamk : s.lam k = ((p : ℚ) : WithTop ℚ) :=
      le_antisymm (hInv.queue_sound (p, k) hpk_mem) hg1
    by_cases hfound : k ∈ H ∧ k ∉ s.found.map Prod.fst
    · rw [if_pos hfound]
      refine visit_relax_invB hInv hpk_mem hrest_eq hkvis hlamk rfl rfl rfl rfl ?_ ?_
      · intro x hx
        rcases List.mem_append.mp hx with hx2 | hx2
        · obtain ⟨h1, h2, h3⟩ := hInv.found_spec x hx2
          exact ⟨h1, List.mem_cons_of_mem _ h2, h3⟩
        · simp only [List.mem_singleton] at hx2
          subst hx2
          exact ⟨hfound.1, List.mem_cons_self _ _, rfl⟩
      · intro v hv hvH
        rcases List.mem_cons.mp hv with rfl | hv2
        · simp
        · simp only [List.map_append, List.mem_append]
          exact Or.inl (hInv.visited_found v hv2 hvH)
    · rw [if_neg hfound]
      refine visit_relax_invB hInv hpk_mem hrest_eq hkvis hlamk rfl rfl rfl rfl ?_ ?_
      · intro x hx
        obtain ⟨h1, h2, h3⟩ := hInv.found_spec x hx
        exact ⟨h1, List.mem_cons_of_mem _ h2, h3⟩
      · intro v hv hvH
        rcases List.mem_cons.mp hv with rfl | hv2
        · rcases not_and_or.mp hfound with hc | hc
          · exact absurd hvH hc
          · exact not_not.mp hc
        · exact hInv.visited_found v hv2 hvH

theorem initState_invB (Gp : Graph) (d : String) (H : List String) :
    InvB Gp d H (initState d) := by
  refine ⟨?_, ?_, ?_, ?_, ?_, ?_, ?_, ?_, ?_, ?_, ?_⟩
  · intro e he
    simp only [initState, List.mem_singleton] at he
    subst he
    unfold relevantNodes
    rw [List.mem_dedup]
    exact List.mem_cons_self _ _
  · intro e he
    simp only [initState, List.mem_singleton] at he
    subst he
    simp [initState]
  · intro e he
    simp only [initState, List.mem_singleton] at he
    subst he
    exact ReachesAt.base
  · intro v q hv
    simp only [initState] at hv
    by_cases hvd : v = d
    · rw [if_pos hvd] at hv
      have : (0 : ℚ) = q := by exact_mod_cast hv
      subst hvd
      exact this ▸ ReachesAt.base
    · rw [if_neg hvd] at hv
      exact absurd hv.symm WithTop.coe_ne_top
  · intro v hv
    simp [initState] at hv
  · intro u hu
    simp [initState] at hu
  · intro v hvis hfin
    simp only [initState] at hfin ⊢
    by_cases hvd : v = d
    · subst hvd
      exact ⟨0, by simp, by simp⟩
    · rw [if_neg hvd] at hfin
      exact absurd rfl hfin
  · intro v hv
    simp [initState] at hv
  · intro x hx
    simp [initState] at hx
  · intro v hv
    simp [initState] at hv
  · simp [initState]

theorem dijkstraLoop_invB {Gp : Graph} {d : String} {H : List String} :
    ∀ (fuel : Nat) (s : DijkstraState), InvB Gp d H s →
      InvB Gp d H (dijkstraLoop Gp H fuel s) := by
  intro fuel
  induction fuel with
  | zero => intro s hInv; exact hInv
  | succ fuel ih =>
      intro s hInv
      show InvB Gp d H (dijkstraLoop Gp H (fuel + 1) s)
      rw [dijkstraLoop]
      cases hp : popMin s.queue with
      | none => exact hInv
      | some pr =>
          obtain ⟨⟨p, k⟩, rest⟩ := pr
          exact ih _ (dijkstraStep_invB hInv hp)

/-! Termination: the potential strictly decreases at every loop iteration. -/

theorem filter_not_mem_cons_of_not_mem {k : String} {vis : List String} :
    ∀ {xs : List String}, k ∉ xs →
      xs.filter (fun v => decide (v ∉ k :: vis)) = xs.filter (fun v => decide (v ∉ vis)) := by
  intro xs
  induction xs with
  | nil => intro _; rfl
  | cons x rest ih =>
      intro hk
      have hxk : x ≠ k := fun hc => hk (hc ▸ List.mem_cons_self _ _)
      have hkrest : k ∉ rest := fun hc => hk (List.mem_cons_of_mem _ hc)
      have hcond : (decide (x ∉ k :: vis)) = (decide (x ∉ vis)) := by
        apply decide_eq_decide.mpr
        simp [List.mem_cons, hxk]
      simp only [List.filter_cons, hcond, ih hkrest]

theorem sum_filter_visit (f : String → Nat) {k : String} (vis : List String) :
    ∀ {L : List String}, L.Nodup → k ∈ L → k ∉ vis →
      ((L.filter (fun v => decide (v ∉ vis))).map f).sum =
        ((L.filter (fun v => decide (v ∉ k :: vis))).map f).sum + f k := by
  intro L
  induction L with
  | nil => intro _ hk; simp at hk
  | cons x rest ih =>
      intro hnd hkL hkvis
      rw [List.nodup_cons] at hnd
      by_cases hxk : x = k
      · subst hxk
        have e1 : (x :: rest).filter (fun v => decide (v ∉ vis)) =
            x :: rest.filter (fun v => decide (v ∉ vis)) :=
          List.filter_cons_of_pos (by simpa using hkvis)
        have e2 : (x :: rest).filter (fun v => decide (v ∉ x :: vis)) =
            rest.filter (fun v => decide (v ∉ x :: vis)) :=
          List.filter_cons_of_neg (by simp)
        rw [e1, e2, filter_not_mem_cons_of_not_mem hnd.1]
        simp only [List.map_cons, List.sum_cons]
        omega
      · have hkrest : k ∈ rest := by
          rcases List.mem_cons.mp hkL with heq | h
          · exact absurd heq.symm hxk
          · exact h
        by_cases hxvis : x ∈ vis
        · have e1 : (x :: rest).filter (fun v => decide (v ∉ vis)) =
              rest.filter (fun v => decide (v ∉ vis)) :=
            List.filter_cons_of_neg (by simpa using hxvis)
          have e2 : (x :: rest).filter (fun v => decide (v ∉ k :: vis)) =
              rest.filter (fun v => decide (v ∉ k :: vis)) :=
            List.filter_cons_of_neg (by simp [hxvis])
          rw [e1, e2]
          exact ih hnd.2 hkrest hkvis
        · have e1 : (x :: rest).filter (fun v => decide (v ∉ vis)) =
              x :: rest.filter (fun v => decide (v ∉ vis)) :=
            List.filter_cons_of_pos (by simpa using hxvis)
          have e2 : (x :: rest).filter (fun v => decide (v ∉ k :: vis)) =
              x :: rest.filter (fun v => decide (v ∉ k :: vis)) :=
            List.filter_cons_of_pos (by simp [hxvis, hxk])
          rw [e1, e2]
          simp only [List.map_cons, List.sum_cons]
          rw [ih hnd.2 hkrest hkvis]
          omega

theorem relevantNodes_nodup (Gp : Graph) (d : String) : (relevantNodes Gp d).Nodup :=
  List.nodup_dedup _

theorem dijkstraStep_potential {Gp : Graph} {d : String} {H : List String} {s : DijkstraState}
    {p : ℚ} {k : String} {rest : List (ℚ × String)}
    (hrel : ∀ e ∈ s.queue, e.2 ∈ relevantNodes Gp d)
    (hpop : popMin s.queue = some ((p, k), rest)) :
    potential Gp d (dijkstraStep Gp H s p k rest) < potential Gp d s := by
  obtain ⟨hpk_mem, hrest_eq, -⟩ := popMin_spec hpop
  have hQlen : rest.length + 1 = s.queue.length := popMin_rest_length hpop
  unfold dijkstraStep
  by_cases hguard : ((p : ℚ) : WithTop ℚ) > s.lam k ∨ k ∈ s.visited
  · rw [if_pos hguard]
    unfold potential
    dsimp only
    omega
  · rw [if_neg hguard]
    push_neg at hguard
    obtain ⟨-, hkvis⟩ := hguard
    have hkrel : k ∈ relevantNodes Gp d := hrel (p, k) hpk_mem
    have hsum := sum_filter_visit (fun v => nodeDeg Gp v + 1) s.visited
      (relevantNodes_nodup Gp d) hkrel hkvis
    dsimp only at hsum
    have hdeg : ((alookup k Gp).getD []).length = nodeDeg Gp k := rfl
    by_cases hfound : k ∈ H ∧ k ∉ s.found.map Prod.fst
    · rw [if_pos hfound]
      have hql := relax_queue_len p k ((alookup k Gp).getD [])
        ({ s with queue := rest, visited := k :: s.visited, found := s.found ++ [(k, s.lam k)] })
      dsimp only at hql
      rw [hdeg] at hql
      unfold potential
      rw [relax_visited_eq]
      dsimp only
      rw [hsum]
      omega
    · rw [if_neg hfound]
      have hql := relax_queue_len p k ((alookup k Gp).getD [])
        ({ s with queue := rest, visited := k :: s.visited })
      dsimp only at hql
      rw [hdeg] at hql
      unfold potential
      rw [relax_visited_eq]
      dsimp only
      rw [hsum]
      omega

theorem dijkstraLoop_drains {Gp : Graph} {d : String} {H : List String} :
    ∀ (fuel : Nat) (s : DijkstraState), InvB Gp d H s → potential Gp d s ≤ fuel →
      (dijkstraLoop Gp H fuel s).queue = [] := by
  intro fuel
  induction fuel with
  | zero =>
      intro s _ hpot
      have : s.queue.length = 0 := by
        unfold potential at hpot
        omega
      exact List.length_eq_zero.mp this
  | succ fuel ih =>
      intro s hInv hpot
      show (dijkstraLoop Gp H (fuel + 1) s).queue = []
      rw [dijkstraLoop]
      cases hp : popMin s.queue with
      | none => exact popMin_eq_none hp
      | some pr =>
          obtain ⟨⟨p, k⟩, rest⟩ := pr
          refine ih _ (dijkstraStep_invB hInv hp) ?_
          have hdec := dijkstraStep_potential (H := H) hInv.queue_relevant hp
          show potential Gp d (dijkstraStep Gp H s p k rest) ≤ fuel
          omega

/-! Optimality of visited nodes (requires non-negative weights). -/

/-- Every visited node's recorded distance is a lower bound of every walk cost. -/
def VisitedMin (Gp : Graph) (d : String) (s : DijkstraState) : Prop :=
  ∀ v ∈ s.visited, ∀ c : ℚ, ReachesAt Gp d v c → s.lam v ≤ ((c : ℚ) : WithTop ℚ)

/-- Key argument at a pop of minimal priority `p`: every walk from the
destination to any unvisited node costs at least `p`. -/
theorem pop_path_bound {Gp : Graph} {d : String} {H : List String} {s : DijkstraState}
    (hInv : InvB Gp d H s) (hvm : VisitedMin Gp d s) (hw : WeightNonneg Gp)
    {p : ℚ} {k : String} (hmin : ∀ x ∈ s.queue, ¬ entryLt x (p, k)) :
    ∀ {v : String} {c : ℚ}, ReachesAt Gp d v c → v ∉ s.visited → p ≤ c := by
  intro v c hreach
  induction hreach with
  | base =>
      intro hdvis
      have hfin : s.lam d ≠ ⊤ := by
        intro hc
        have := hInv.lam_d
        rw [hc] at this
        simp at this
      obtain ⟨pd, hpd, hmem⟩ := hInv.queue_cover d hdvis hfin
      have h1 : ¬ entryLt (pd, d) (p, k) := hmin _ hmem
      have h2 : p ≤ pd := by
        by_contra hc
        push_neg at hc
        exact h1 (Or.inl hc)
      have h3 : ((pd : ℚ) : WithTop ℚ) ≤ ((0 : ℚ) : WithTop ℚ) := hpd ▸ hInv.lam_d
      have h4 : pd ≤ 0 := by exact_mod_cast h3
      linarith
  | step hu hedge ih =>
      rename_i u v2 c2 a
      intro hvvis
      by_cases huvis : u ∈ s.visited
      · have hufin := hInv.visited_fin u huvis
        obtain ⟨qu, hqu⟩ : ∃ qu : ℚ, s.lam u = ((qu : ℚ) : WithTop ℚ) := by
          obtain ⟨a0, ha0⟩ := WithTop.ne_top_iff_exists.mp hufin
          exact ⟨a0, ha0.symm⟩
        have hqu_le : qu ≤ c2 := by
          have := hvm u huvis c2 hu
          rw [hqu] at this
          exact_mod_cast this
        have hfront := hInv.frontier u huvis v2 a hedge hvvis qu hqu
        have hvfin : s.lam v2 ≠ ⊤ := by
          intro hc
          rw [hc] at hfront
          simp at hfront
        obtain ⟨pv, hpv, hmemv⟩ := hInv.queue_cover v2 hvvis hvfin
        have h1 : p ≤ pv := by
          have hne := hmin _ hmemv
          by_contra hc
          push_neg at hc
          exact hne (Or.inl hc)
        have h2 : pv ≤ qu + calculate_composite_weight a := by
          rw [hpv] at hfront
          exact_mod_cast hfront
        linarith
      · have h1 := ih huvis
        have hw0 : 0 ≤ calculate_composite_weight a := hw _ _ _ hedge
        linarith

theorem dijkstraStep_visitedMin {Gp : Graph} {d : String} {H : List String}
    {s : DijkstraState} {p : ℚ} {k : String} {rest : List (ℚ × String)}
    (hInv : InvB Gp d H s) (hvm : VisitedMin Gp d s) (hw : WeightNonneg Gp)
    (hpop : popMin s.queue = some ((p, k), rest)) :
    VisitedMin Gp d (dijkstraStep Gp H s p k rest) := by
  obtain ⟨hpk_mem, hrest_eq, hmin⟩ := popMin_spec hpop
  unfold dijkstraStep
  by_cases hguard : ((p : ℚ) : WithTop ℚ) > s.lam k ∨ k ∈ s.visited
  · rw [if_pos hguard]
    intro v hv c hc
    exact hvm v hv c hc
  · rw [if_neg hguard]
    push_neg at hguard
    obtain ⟨hg1, hkvis⟩ := hguard
    have hlamk : s.lam k = ((p : ℚ) : WithTop ℚ) :=
      le_antisymm (hInv.queue_sound (p, k) hpk_mem) hg1
    have main : ∀ (s2 : DijkstraState), s2.lam = s.lam → s2.visited = k :: s.visited →
        VisitedMin Gp d (relaxNeighbors p k ((alookup k Gp).getD []) s2) := by
      intro s2 h2lam h2vis
      intro v hv c hc
      rw [relax_visited_eq, h2vis] at hv
      rcases List.mem_cons.mp hv with rfl | hvold
      · rw [relax_lam_of_visited p v _ s2 v
          (by rw [h2vis]; exact List.mem_cons_self _ _), h2lam, hlamk]
        exact WithTop.coe_le_coe.mpr (pop_path_bound hInv hvm hw hmin hc hkvis)
      · rw [relax_lam_of_visited p k _ s2 v
          (by rw [h2vis]; exact List.mem_cons_of_mem _ hvold), h2lam]
        exact hvm v hvold c hc
    by_cases hfound : k ∈ H ∧ k ∉ s.found.map Prod.fst
    · rw [if_pos hfound]
      exact main _ rfl rfl
    · rw [if_neg hfound]
      exact main _ rfl rfl

theorem dijkstraLoop_visitedMin {Gp : Graph} {d : String} {H : List String}
    (hw : WeightNonneg Gp) :
    ∀ (fuel : Nat) (s : DijkstraState), InvB Gp d H s → VisitedMin Gp d s →
      VisitedMin Gp d (dijkstraLoop Gp H fuel s) := by
  intro fuel
  induction fuel with
  | zero => intro s _ hvm; exact hvm
  | succ fuel ih =>
      intro s hInv hvm
      show VisitedMin Gp d (dijkstraLoop Gp H (fuel + 1) s)
      rw [dijkstraLoop]
      cases hp : popMin s.queue with
      | none => exact hvm
      | some pr =>
          obtain ⟨⟨p, k⟩, rest⟩ := pr
          exact ih _ (dijkstraStep_invB hInv hp) (dijkstraStep_visitedMin hInv hvm hw hp)

theorem initState_visitedMin (Gp : Graph) (d : String) : VisitedMin Gp d (initState d) := by
  intro v hv
  simp [initState] at hv

/-! Facts about the drained final state. -/

theorem final_unvisited_top {Gp : Graph} {d : String} {H : List String} {s : DijkstraState}
    (hInv : InvB Gp d H s) (hq : s.queue = []) :
    ∀ v : String, v ∉ s.visited → s.lam v = ⊤ := by
  intro v hv
  by_contra hfin
  obtain ⟨pv, hpv, hmem⟩ := hInv.queue_cover v hv hfin
  rw [hq] at hmem
  simp at hmem

theorem final_reachable_visited {Gp : Graph} {d : String} {H : List String} {s : DijkstraState}
    (hInv : InvB Gp d H s) (hq : s.queue = []) :
    ∀ {v : String} {c : ℚ}, ReachesAt Gp d v c → v ∈ s.visited := by
  intro v c h
  induction h with
  | base =>
      by_contra hdvis
      have htop := final_unvisited_top hInv hq d hdvis
      have := hInv.lam_d
      rw [htop] at this
      simp at this
  | step hu hedge ih =>
      rename_i u v2 c2 a
      by_contra hvvis
      have hufin := hInv.visited_fin u ih
      obtain ⟨qu, hqu⟩ : ∃ qu : ℚ, s.lam u = ((qu : ℚ) : WithTop ℚ) := by
        obtain ⟨a0, ha0⟩ := WithTop.ne_top_iff_exists.mp hufin
        exact ⟨a0, ha0.symm⟩
      have hfront := hInv.frontier u ih v2 a hedge hvvis qu hqu
      have htop := final_unvisited_top hInv hq v2 hvvis
      rw [htop] at hfront
      simp at hfront

/-! The search phase as used by `find_optimal_dispatch`. -/

theorem dispatchSearch_invB (G : Graph) (destination : String) (hospitals : List String) :
    InvB (reverse_graph G) destination hospitals (dispatchSearch G destination hospitals) :=
  dijkstraLoop_invB _ _ (initState_invB _ _ _)

theorem dispatchSearch_queue_nil (G : Graph) (destination : String) (hospitals : List String) :
    (dispatchSearch G destination hospitals).queue = [] :=
  dijkstraLoop_drains _ _ (initState_invB _ _ _) (le_of_eq rfl)

theorem dispatchSearch_visitedMin (G : Graph) (destination : String) (hospitals : List String)
    (hw : WeightNonneg (reverse_graph G)) :
    VisitedMin (reverse_graph G) destination (dispatchSearch G destination hospitals) :=
  dijkstraLoop_visitedMin hw _ _ (initState_invB _ _ _) (initState_visitedMin _ _)

/-! The found list only grows, by appending, in visit order. -/

theorem dijkstraStep_found_append {Gp : Graph} {H : List String} {s : DijkstraState}
    {p : ℚ} {k : String} {rest : List (ℚ × String)} :
    ∃ t, (dijkstraStep Gp H s p k rest).found = s.found ++ t := by
  unfold dijkstraStep
  by_cases hguard : ((p : ℚ) : WithTop ℚ) > s.lam k ∨ k ∈ s.visited
  · rw [if_pos hguard]
    exact ⟨[], by simp⟩
  · rw [if_neg hguard]
    by_cases hfound : k ∈ H ∧ k ∉ s.found.map Prod.fst
    · rw [if_pos hfound]
      exact ⟨[(k, s.lam k)], by rw [relax_found_eq]⟩
    · rw [if_neg hfound]
      exact ⟨[], by rw [relax_found_eq]; simp⟩

theorem dijkstraLoop_found_append {Gp : Graph} {H : List String} :
    ∀ (fuel : Nat) (s : DijkstraState),
      ∃ t, (dijkstraLoop Gp H fuel s).found = s.found ++ t := by
  intro fuel
  induction fuel with
  | zero => intro s; exact ⟨[], by rw [dijkstraLoop]; simp⟩
  | succ fuel ih =>
      intro s
      show ∃ t, (dijkstraLoop Gp H (fuel + 1) s).found = s.found ++ t
      rw [dijkstraLoop]
      cases hp : popMin s.queue with
      | none => exact ⟨[], by simp⟩
      | some pr =>
          obtain ⟨⟨p, k⟩, rest⟩ := pr
          obtain ⟨t1, ht1⟩ : ∃ t, (dijkstraStep Gp H s p k rest).found = s.found ++ t :=
            dijkstraStep_found_append
          obtain ⟨t2, ht2⟩ := ih (dijkstraStep Gp H s p k rest)
          exact ⟨t1 ++ t2, by rw [ht2, ht1, List.append_assoc]⟩

/-! With non-negative weights the destination keeps distance 0 and no
predecessor for the whole run. -/

/-- The destination's distance stays 0 and its predecessor stays `None`. -/
def DestFixed (d : String) (s : DijkstraState) : Prop :=
  s.lam d = ((0 : ℚ) : WithTop ℚ) ∧ s.pred d = none

theorem relaxOne_dest {d : String} {p : ℚ} {k : String} {s : DijkstraState}
    {nb : String × EdgeAttr} (h : DestFixed d s) (hp : 0 ≤ p)
    (hw0 : 0 ≤ calculate_composite_weight nb.2) : DestFixed d (relaxOne p k s nb) := by
  rcases relaxOne_eq_or p k s nb with heq | ⟨hvis, hlt, heq⟩
  · rw [heq]; exact h
  · by_cases hnd : nb.1 = d
    · exfalso
      rw [hnd, h.1] at hlt
      have : p + calculate_composite_weight nb.2 < 0 := by exact_mod_cast hlt
      linarith
    · rw [heq]
      constructor
      · dsimp only
        rw [Function.update_apply, if_neg (fun hc : d = nb.1 => hnd hc.symm)]
        exact h.1
      · dsimp only
        rw [Function.update_apply, if_neg (fun hc : d = nb.1 => hnd hc.symm)]
        exact h.2

theorem relax_dest {Gp : Graph} {d : String} {p : ℚ} {k : String} (hw : WeightNonneg Gp)
    (hp : 0 ≤ p) :
    ∀ {ns : List (String × EdgeAttr)} {s : DijkstraState},
      (∀ nb ∈ ns, EdgeIn Gp k nb.1 nb.2) → DestFixed d s →
      DestFixed d (relaxNeighbors p k ns s) := by
  intro ns
  induction ns with
  | nil => intro s _ h; exact h
  | cons nb rest ih =>
      intro s hedges h
      exact ih (fun x hx => hedges x (List.mem_cons_of_mem _ hx))
        (relaxOne_dest h hp (hw _ _ _ (hedges nb (List.mem_cons_self _ _))))

theorem dijkstraStep_dest {Gp : Graph} {d : String} {H : List String} {s : DijkstraState}
    {p : ℚ} {k : String} {rest : List (ℚ × String)} (hInv : InvB Gp d H s)
    (hw : WeightNonneg Gp) (hpop : popMin s.queue = some ((p, k), rest))
    (h : DestFixed d s) : DestFixed d (dijkstraStep Gp H s p k rest) := by
  obtain ⟨hpk_mem, -, -⟩ := popMin_spec hpop
  have hp : 0 ≤ p := reachesAt_nonneg hw (hInv.queue_path (p, k) hpk_mem)
  have hedges : ∀ nb ∈ (alookup k Gp).getD [], EdgeIn Gp k nb.1 nb.2 := by
    intro nb hnb
    cases halk : alookup k Gp with
    | none => rw [halk] at hnb; simp at hnb
    | some ns0 =>
        rw [halk] at hnb
        exact ⟨ns0, halk, by simpa using hnb⟩
  unfold dijkstraStep
  by_cases hguard : ((p : ℚ) : WithTop ℚ) > s.lam k ∨ k ∈ s.visited
  · rw [if_pos hguard]
    exact h
  · rw [if_neg hguard]
    by_cases hfound : k ∈ H ∧ k ∉ s.found.map Prod.fst
    · rw [if_pos hfound]
      exact relax_dest hw hp hedges h
    · rw [if_neg hfound]
      exact relax_dest hw hp hedges h

theorem dijkstraLoop_dest {Gp : Graph} {d : String} {H : List String} (hw : WeightNonneg Gp) :
    ∀ (fuel : Nat) (s : DijkstraState), InvB Gp d H s → DestFixed d s →
      DestFixed d (dijkstraLoop Gp H fuel s) := by
  intro fuel
  induction fuel with
  | zero => intro s _ h; exact h
  | succ fuel ih =>
      intro s hInv h
      show DestFixed d (dijkstraLoop Gp H (fuel + 1) s)
      rw [dijkstraLoop]
      cases hp : popMin s.queue with
      | none => exact h
      | some pr =>
          obtain ⟨⟨p, k⟩, rest⟩ := pr
          exact ih _ (dijkstraStep_invB hInv hp) (dijkstraStep_dest hInv hw hp h)

/-! Properties of the argmin selection (Python `min` with a key function). -/

theorem argminFound_mem : ∀ (xs : List (String × WithTop ℚ)) (x : String × WithTop ℚ),
    argminFound x xs ∈ x :: xs := by
  intro xs
  induction xs with
  | nil => intro x; exact List.mem_singleton.mpr rfl
  | cons z zs ih =>
      intro x
      show argminFound (if z.2 < x.2 then z else x) zs ∈ x :: z :: zs
      have := ih (if z.2 < x.2 then z else x)
      rcases List.mem_cons.mp this with heq | hmem
      · rw [heq]
        by_cases hz : z.2 < x.2
        · rw [if_pos hz]
          exact List.mem_cons_of_mem _ (List.mem_cons_self _ _)
        · rw [if_neg hz]
          exact List.mem_cons_self _ _
      · exact List.mem_cons_of_mem _ (List.mem_cons_of_mem _ hmem)

theorem argminFound_le : ∀ (xs : List (String × WithTop ℚ)) (x : String × WithTop ℚ),
    ∀ y ∈ x :: xs, (argminFound x xs).2 ≤ y.2 := by
  intro xs
  induction xs with
  | nil =>
      intro x y hy
      rw [List.mem_singleton.mp hy]
      exact le_refl _
  | cons z zs ih =>
      intro x y hy
      show (argminFound (if z.2 < x.2 then z else x) zs).2 ≤ y.2
      have hhead := ih (if z.2 < x.2 then z else x) _ (List.mem_cons_self _ _)
      have hminxz : (if z.2 < x.2 then z else x).2 ≤ x.2 ∧
          (if z.2 < x.2 then z else x).2 ≤ z.2 := by
        by_cases hz : z.2 < x.2
        · rw [if_pos hz]; exact ⟨le_of_lt hz, le_refl _⟩
        · rw [if_neg hz]; exact ⟨le_refl _, not_lt.mp hz⟩
      rcases List.mem_cons.mp hy with rfl | hy2
      · exact le_trans hhead hminxz.1
      · rcases List.mem_cons.mp hy2 with rfl | hy3
        · exact le_trans hhead hminxz.2
        · exact ih _ _ (List.mem_cons_of_mem _ hy3)

theorem argminFound_head_of_min : ∀ (xs : List (String × WithTop ℚ)) (x : String × WithTop ℚ),
    (∀ y ∈ xs, ¬ y.2 < x.2) → argminFound x xs = x := by
  intro xs
  induction xs with
  | nil => intro x _; rfl
  | cons z zs ih =>
      intro x h
      show argminFound (if z.2 < x.2 then z else x) zs = x
      rw [if_neg (h z (List.mem_cons_self _ _))]
      exact ih x (fun y hy => h y (List.mem_cons_of_mem _ hy))

theorem argminFound_first : ∀ (xs : List (String × WithTop ℚ)) (x : String × WithTop ℚ),
    ∃ l1 l2, x :: xs = l1 ++ (argminFound x xs) :: l2 ∧
      ∀ y ∈ l1, (argminFound x xs).2 < y.2 := by
  intro xs
  induction xs with
  | nil =>
      intro x
      exact ⟨[], [], rfl, by simp⟩
  | cons z zs ih =>
      intro x
      show ∃ l1 l2, x :: z :: zs = l1 ++ (argminFound (if z.2 < x.2 then z else x) zs) :: l2 ∧
        ∀ y ∈ l1, (argminFound (if z.2 < x.2 then z else x) zs).2 < y.2
      by_cases hz : z.2 < x.2
      · rw [if_pos hz]
        obtain ⟨l1, l2, hdec, hlt⟩ := ih z
        refine ⟨x :: l1, l2, by rw [List.cons_append, ← hdec], ?_⟩
        intro y hy
        rcases List.mem_cons.mp hy with rfl | hy2
        · exact lt_of_le_of_lt (argminFound_le zs z _ (List.mem_cons_self _ _)) hz
        · exact hlt y hy2
      · rw [if_neg hz]
        obtain ⟨l1, l2, hdec, hlt⟩ := ih x
        cases l1 with
        | nil =>
            rw [List.nil_append] at hdec
            obtain ⟨hrx, hl2⟩ := List.cons_eq_cons.mp hdec
            refine ⟨[], z :: zs, ?_, by simp⟩
            rw [List.nil_append, ← hrx]
        | cons a l1t =>
            rw [List.cons_append] at hdec
            obtain ⟨hxa, hzs⟩ := List.cons_eq_cons.mp hdec
            refine ⟨x :: z :: l1t, l2, ?_, ?_⟩
            · rw [List.cons_append, List.cons_append, ← hzs]
            · intro y hy
              have hrx : (argminFound x zs).2 < x.2 := by
                have := hlt a (List.mem_cons_self _ _)
                rw [← hxa] at this
                exact this
              rcases List.mem_cons.mp hy with rfl | hy2
              · exact hrx
              · rcases List.mem_cons.mp hy2 with rfl | hy3
                · exact lt_of_lt_of_le hrx (not_lt.mp hz)
                · exact hlt y (List.mem_cons_of_mem _ hy3)

/-! Reversal correctness. -/

theorem alookup_append {β : Type} (k : String) :
    ∀ (l1 l2 : List (String × β)), alookup k (l1 ++ l2) =
      match alookup k l1 with
      | some v => some v
      | none => alookup k l2 := by
  intro l1 l2
  induction l1 with
  | nil => rfl
  | cons p rest ih =>
      by_cases hk : k = p.1
      · simp [alookup, hk]
      · simp only [List.cons_append, alookup, if_neg hk]
        exact ih

theorem reverse_graph_keys (G : Graph) : (reverse_graph G).map Prod.fst = allNodes G := by
  unfold reverse_graph
  rw [List.map_map]
  have hcomp : (Prod.fst ∘ fun v => (v, reverseNeighbors G v)) = fun x : String => x := rfl
  rw [hcomp]
  exact List.map_id' _

theorem lookupEdge_eq (G : Graph) (u v : String) :
    lookupEdge G u v = (alookup u G).bind (fun ns => alookup v ns) := by
  unfold lookupEdge
  cases alookup u G <;> rfl

theorem alookup_reverse_graph (G : Graph) (v : String) :
    alookup v (reverse_graph G) =
      if v ∈ allNodes G then some (reverseNeighbors G v) else none := by
  by_cases h : v ∈ allNodes G
  · rw [if_pos h]
    exact alookup_map_self h
  · rw [if_neg h]
    apply alookup_eq_none_of_not_mem
    rw [reverse_graph_keys]
    exact h

theorem filter_key_cons_pos {q : String × EdgeAttr} {v : String}
    (qs : List (String × EdgeAttr)) (hq : q.1 = v) :
    (q :: qs).filter (fun q => q.1 == v) = q :: qs.filter (fun q => q.1 == v) := by
  rw [List.filter_cons]
  simp [hq]

theorem filter_key_cons_neg {q : String × EdgeAttr} {v : String}
    (qs : List (String × EdgeAttr)) (hq : ¬ q.1 = v) :
    (q :: qs).filter (fun q => q.1 == v) = qs.filter (fun q => q.1 == v) := by
  rw [List.filter_cons]
  simp [hq]

theorem alookup_cons_pos {β : Type} {u : String} {p : String × β} (l : List (String × β))
    (h : u = p.1) : alookup u (p :: l) = some p.2 := by
  unfold alookup
  rw [if_pos h]

theorem alookup_cons_neg {β : Type} {u : String} {p : String × β} (l : List (String × β))
    (h : ¬ u = p.1) : alookup u (p :: l) = alookup u l := by
  show (if u = p.1 then some p.2 else alookup u l) = alookup u l
  rw [if_neg h]

theorem alookup_block_self {u v : String} :
    ∀ (ns : List (String × EdgeAttr)),
      alookup u ((ns.filter (fun q => q.1 == v)).map (fun q => (u, q.2))) = alookup v ns := by
  intro ns
  induction ns with
  | nil => rfl
  | cons q qs ih =>
      by_cases hq : q.1 = v
      · rw [filter_key_cons_pos qs hq, List.map_cons,
          alookup_cons_pos (p := (u, q.2)) _ rfl, alookup_cons_pos qs hq.symm]
      · rw [filter_key_cons_neg qs hq,
          alookup_cons_neg qs (fun hc : v = q.1 => hq hc.symm)]
        exact ih

theorem alookup_block_ne {k0 u v : String} (hne : u ≠ k0) :
    ∀ (ns : List (String × EdgeAttr)),
      alookup u ((ns.filter (fun q => q.1 == v)).map (fun q => (k0, q.2))) = none := by
  intro ns
  induction ns with
  | nil => rfl
  | cons q qs ih =>
      by_cases hq : q.1 = v
      · rw [filter_key_cons_pos qs hq, List.map_cons, alookup_cons_neg _ hne]
        exact ih
      · rw [filter_key_cons_neg qs hq]
        exact ih

theorem reverseNeighbors_cons (p : String × List (String × EdgeAttr)) (G : Graph)
    (v : String) :
    reverseNeighbors (p :: G) v =
      ((p.2.filter (fun q => q.1 == v)).map (fun q => (p.1, q.2))) ++ reverseNeighbors G v := by
  unfold reverseNeighbors
  rw [List.flatMap_cons]

theorem alookup_reverseNeighbors_none {G : Graph} {u v : String}
    (h : u ∉ G.map Prod.fst) : alookup u (reverseNeighbors G v) = none := by
  cases halk : alookup u (reverseNeighbors G v) with
  | none => rfl
  | some a =>
      exfalso
      obtain ⟨ns, hns, -⟩ := mem_reverseNeighbors.mp (alookup_mem halk)
      exact h (List.mem_map.mpr ⟨(u, ns), hns, rfl⟩)

theorem lookupEdge_eq_none_of_target_not_node {G : Graph} {u v : String}
    (h : v ∉ allNodes G) : lookupEdge G u v = none := by
  rw [lookupEdge_eq]
  cases halk : alookup u G with
  | none => rfl
  | some ns =>
      rw [Option.some_bind]
      cases hin : alookup v ns with
      | none => rfl
      | some a =>
          exfalso
          apply h
          unfold allNodes
          rw [List.mem_dedup, List.mem_append]
          refine Or.inr (List.mem_flatMap.mpr ⟨(u, ns), alookup_mem halk, ?_⟩)
          exact List.mem_map.mpr ⟨(v, a), alookup_mem hin, rfl⟩

theorem alookup_reverseNeighbors {u v : String} :
    ∀ {G : Graph}, (G.map Prod.fst).Nodup →
      alookup u (reverseNeighbors G v) = lookupEdge G u v := by
  intro G
  induction G with
  | nil => intro _; rfl
  | cons p rest ih =>
      intro hnd
      rw [List.map_cons, List.nodup_cons] at hnd
      rw [reverseNeighbors_cons, alookup_append]
      by_cases hu : u = p.1
      · subst hu
        rw [alookup_block_self p.2, lookupEdge_eq, alookup_cons_pos rest rfl,
          Option.some_bind]
        cases hin : alookup v p.2 with
        | some a => rfl
        | none =>
            show alookup p.1 (reverseNeighbors rest v) = none
            exact alookup_reverseNeighbors_none hnd.1
      · rw [alookup_block_ne hu p.2, lookupEdge_eq, alookup_cons_neg rest hu,
          ← lookupEdge_eq]
        exact ih hnd.2

theorem reverse_graph_lookupEdge {G : Graph} (hWF : (G.map Prod.fst).Nodup)
    (u v : String) : lookupEdge (reverse_graph G) v u = lookupEdge G u v := by
  by_cases hv : v ∈ allNodes G
  · rw [lookupEdge_eq, alookup_reverse_graph, if_pos hv, Option.some_bind]
    exact alookup_reverseNeighbors hWF
  · have h1 : lookupEdge (reverse_graph G) v u = none := by
      rw [lookupEdge_eq, alookup_reverse_graph, if_neg hv]
      rfl
    rw [h1, lookupEdge_eq_none_of_target_not_node hv]

theorem filter_key_eq_nil {v : String} :
    ∀ {qs : List (String × EdgeAttr)},
      (∀ q ∈ qs, q.1 ≠ v) → qs.filter (fun q => q.1 == v) = [] := by
  intro qs
  induction qs with
  | nil => intro _; rfl
  | cons q rest ih =>
      intro h
      rw [filter_key_cons_neg rest (h q (List.mem_cons_self _ _))]
      exact ih (fun x hx => h x (List.mem_cons_of_mem _ hx))

theorem reverseNeighbors_key_mem {G : Graph} {v x : String}
    (h : x ∈ (reverseNeighbors G v).map Prod.fst) : x ∈ G.map Prod.fst := by
  obtain ⟨q, hq, hqx⟩ := List.mem_map.mp h
  obtain ⟨ns, hns, -⟩ := mem_reverseNeighbors.mp ((Prod.mk.eta (p := q)) ▸ hq)
  exact List.mem_map.mpr ⟨(q.1, ns), hqx ▸ hns, hqx ▸ rfl⟩

theorem reverseNeighbors_keys_nodup {v : String} :
    ∀ {G : Graph}, GraphWF G → ((reverseNeighbors G v).map Prod.fst).Nodup := by
  intro G
  induction G with
  | nil => intro _; exact List.nodup_nil
  | cons p rest ih =>
      intro hWF
      obtain ⟨hout, hinn⟩ := hWF
      rw [List.map_cons, List.nodup_cons] at hout
      have ihrest : ((reverseNeighbors rest v).map Prod.fst).Nodup :=
        ih ⟨hout.2, fun x hx => hinn x (List.mem_cons_of_mem _ hx)⟩
      rw [reverseNeighbors_cons, List.map_append]
      cases hb : p.2.filter (fun q => q.1 == v) with
      | nil =>
          simpa using ihrest
      | cons q qt =>
          have hqt : qt = [] := by
            have hlen : ∀ (qs0 : List (String × EdgeAttr)), (qs0.map Prod.fst).Nodup →
                (qs0.filter (fun q => q.1 == v)).length ≤ 1 := by
              intro qs0
              induction qs0 with
              | nil => intro _; simp
              | cons q0 rest0 ih0 =>
                  intro hndp
                  rw [List.map_cons, List.nodup_cons] at hndp
                  by_cases hq0 : q0.1 = v
                  · rw [filter_key_cons_pos rest0 hq0]
                    have hnil : rest0.filter (fun q => q.1 == v) = [] := by
                      apply filter_key_eq_nil
                      intro x hx hxv
                      exact hndp.1 (hq0 ▸ hxv ▸ List.mem_map.mpr ⟨x, hx, rfl⟩)
                    rw [hnil]
                    simp
                  · rw [filter_key_cons_neg rest0 hq0]
                    exact ih0 hndp.2
            have hlen2 := hlen p.2 (hinn p (List.mem_cons_self _ _))
            rw [hb] at hlen2
            simp only [List.length_cons] at hlen2
            exact List.length_eq_zero.mp (by omega)
          subst hqt
          simp only [List.map_cons, List.map_nil, List.singleton_append, List.nodup_cons]
          refine ⟨?_, ihrest⟩
          intro hc
          exact hout.1 (reverseNeighbors_key_mem hc)

theorem reverse_graph_WF {G : Graph} (hWF : GraphWF G) : GraphWF (reverse_graph G) := by
  constructor
  · rw [reverse_graph_keys]
    exact List.nodup_dedup _
  · intro p hp
    obtain ⟨v, hv, hpv⟩ := List.mem_map.mp hp
    rw [← hpv]
    exact reverseNeighbors_keys_nodup hWF

/-! Unfolding helpers for the selection phase. -/

theorem dijkstraLoop_succ (Gp : Graph) (H : List String) (fuel : Nat) (s : DijkstraState)
    {p : ℚ} {k : String} {rest : List (ℚ × String)}
    (hpop : popMin s.queue = some ((p, k), rest)) :
    dijkstraLoop Gp H (fuel + 1) s = dijkstraLoop Gp H fuel (dijkstraStep Gp H s p k rest) := by
  rw [dijkstraLoop, hpop]

theorem popMin_init (d : String) : popMin (initState d).queue = some (((0 : ℚ), d), []) := by
  show popMin [((0 : ℚ), d)] = _
  unfold popMin
  simp [findMin, eraseEntry]

theorem predChain_none {pr : String → Option String} {d : String} (h : pr d = none)
    (m : Nat) : predChain pr (m + 1) d = [d] := by
  unfold predChain
  rw [h]

theorem find_optimal_dispatch_of_found {G : Graph} {destination : String}
    {hospitals : List String} {f : String × WithTop ℚ} {fs : List (String × WithTop ℚ)}
    (hf : (dispatchSearch G destination hospitals).found = f :: fs) :
    find_optimal_dispatch G destination hospitals =
      DispatchResult.ok (argminFound f fs).1 (argminFound f fs).2
        ((predChain (dispatchSearch G destination hospitals).pred (chainFuel G)
          (argminFound f fs).1).reverse)
        ((f :: fs).map (fun hf2 =>
          (hf2.1, { lamH := hf2.2
                  , route := (predChain (dispatchSearch G destination hospitals).pred
                      (chainFuel G) hf2.1).reverse
                  , metrics := calculate_route_metrics G
                      ((predChain (dispatchSearch G destination hospitals).pred
                        (chainFuel G) hf2.1).reverse) })))
        (dispatchSearch G destination hospitals).pred
        (dispatchSearch G destination hospitals).lam := by
  simp only [find_optimal_dispatch]
  rw [hf]

theorem find_optimal_dispatch_of_no_found {G : Graph} {destination : String}
    {hospitals : List String}
    (hf : (dispatchSearch G destination hospitals).found = []) :
    find_optimal_dispatch G destination hospitals = DispatchResult.error := by
  simp only [find_optimal_dispatch]
  rw [hf]

theorem find_ok_inversion {G : Graph} {destination : String} {hospitals : List String}
    {hStar : String} {cStar : WithTop ℚ} {r : List String}
    {dts : List (String × HospitalDetail)} {pr : String → Option String}
    {lm : String → WithTop ℚ}
    (hok : find_optimal_dispatch G destination hospitals =
      DispatchResult.ok hStar cStar r dts pr lm) :
    ∃ f fs, (dispatchSearch G destination hospitals).found = f :: fs ∧
      hStar = (argminFound f fs).1 ∧ cStar = (argminFound f fs).2 := by
  cases hfound : (dispatchSearch G destination hospitals).found with
  | nil =>
      rw [find_optimal_dispatch_of_no_found hfound] at hok
      exact absurd hok (by simp)
  | cons f fs =>
      rw [find_optimal_dispatch_of_found hfound] at hok
      refine ⟨f, fs, rfl, ?_, ?_⟩
      · exact (DispatchResult.ok.inj hok).1.symm
      · exact (DispatchResult.ok.inj hok).2.1.symm

/-! The candidates list enters the algorithm only through membership tests. -/

theorem dijkstraStep_hospitals_equiv {Gp : Graph} {H1 H2 : List String}
    (hH : ∀ h : String, h ∈ H1 ↔ h ∈ H2) (s : DijkstraState) (p : ℚ) (k : String)
    (rest : List (ℚ × String)) :
    dijkstraStep Gp H1 s p k rest = dijkstraStep Gp H2 s p k rest := by
  unfold dijkstraStep
  by_cases hguard : ((p : ℚ) : WithTop ℚ) > s.lam k ∨ k ∈ s.visited
  · rw [if_pos hguard, if_pos hguard]
  · rw [if_neg hguard, if_neg hguard]
    congr 1
    exact if_congr (and_congr_left (fun _ => hH k)) rfl rfl

theorem dijkstraLoop_hospitals_equiv {Gp : Graph} {H1 H2 : List String}
    (hH : ∀ h : String, h ∈ H1 ↔ h ∈ H2) :
    ∀ (fuel : Nat) (s : DijkstraState),
      dijkstraLoop Gp H1 fuel s = dijkstraLoop Gp H2 fuel s := by
  intro fuel
  induction fuel with
  | zero => intro s; rfl
  | succ fuel ih =>
      intro s
      rw [dijkstraLoop, dijkstraLoop]
      cases hp : popMin s.queue with
      | none => rfl
      | some pr =>
          obtain ⟨⟨p, k⟩, rest⟩ := pr
          show dijkstraLoop Gp H1 fuel (dijkstraStep Gp H1 s p k rest) =
            dijkstraLoop Gp H2 fuel (dijkstraStep Gp H2 s p k rest)
          rw [dijkstraStep_hospitals_equiv hH, ih]

theorem find_optimal_dispatch_hospitals_equiv {G : Graph} {destination : String}
    {H1 H2 : List String} (hH : ∀ h : String, h ∈ H1 ↔ h ∈ H2) :
    find_optimal_dispatch G destination H1 = find_optimal_dispatch G destination H2 := by
  have hs : dispatchSearch G destination H1 = dispatchSearch G destination H2 :=
    dijkstraLoop_hospitals_equiv hH _ _
  unfold find_optimal_dispatch
  rw [hs]

/-! A concrete two-node run used by the evaluation theorems: the graph has the
single edge A → B, the destination is B and the only candidate is A. -/

/-- Edge payload with every numeric field 1. -/
def pAB : EdgeAttr := ⟨1, 1, ⟨1, 1, 1⟩⟩

/-- Two-node graph with the single edge A → B carrying `pAB`. -/
def exG : Graph := [("A", [("B", pAB)]), ("B", [])]

theorem weight_pAB : calculate_composite_weight pAB = 249679/250000 := by
  norm_num [calculate_composite_weight, w_T, w_R, w_C, v_net, v_gps, v_data, pAB]

theorem exG_found : (dispatchSearch exG "B" ["A"]).found =
    [("A", ((249679/250000 : ℚ) : WithTop ℚ))] := by
  simp [dispatchSearch, dijkstraLoop, dijkstraStep, relaxNeighbors, relaxOne, initState,
    popMin, findMin, entryLt, eraseEntry, searchFuel, potential, relevantNodes,
    reverse_graph, reverseNeighbors, allNodes, alookup, nodeDeg, exG, weight_pAB,
    Function.update_apply, List.dedup]

theorem exG_selected : (find_optimal_dispatch exG "B" ["A"]).selectedNode = some "A" := by
  simp [find_optimal_dispatch, dispatchSearch, dijkstraLoop, dijkstraStep, relaxNeighbors,
    relaxOne, initState, popMin, findMin, entryLt, eraseEntry, searchFuel, potential,
    relevantNodes, reverse_graph, reverseNeighbors, allNodes, alookup, nodeDeg, exG,
    weight_pAB, Function.update_apply, List.dedup, predChain, chainFuel, argminFound,
    DispatchResult.selectedNode]

theorem exG_route : (find_optimal_dispatch exG "B" ["A"]).optimalRoute =
    some ["B", "A"] := by
  simp [find_optimal_dispatch, dispatchSearch, dijkstraLoop, dijkstraStep, relaxNeighbors,
    relaxOne, initState, popMin, findMin, entryLt, eraseEntry, searchFuel, potential,
    relevantNodes, reverse_graph, reverseNeighbors, allNodes, alookup, nodeDeg, exG,
    weight_pAB, Function.update_apply, List.dedup, predChain, chainFuel, argminFound,
    DispatchResult.optimalRoute]

theorem exG_cost : (find_optimal_dispatch exG "B" ["A"]).optimalCost =
    some ((249679/250000 : ℚ) : WithTop ℚ) := by
  simp [find_optimal_dispatch, dispatchSearch, dijkstraLoop, dijkstraStep, relaxNeighbors,
    relaxOne, initState, popMin, findMin, entryLt, eraseEntry, searchFuel, potential,
    relevantNodes, reverse_graph, reverseNeighbors, allNodes, alookup, nodeDeg, exG,
    weight_pAB, Function.update_apply, List.dedup, predChain, chainFuel, argminFound,
    DispatchResult.optimalCost]

theorem exG_details : (find_optimal_dispatch exG "B" ["A"]).allHospitals =
    [("A", { lamH := ((249679/250000 : ℚ) : WithTop ℚ), route := ["B", "A"]
           , metrics := zeroMetrics })] := by
  simp [find_optimal_dispatch, dispatchSearch, dijkstraLoop, dijkstraStep, relaxNeighbors,
    relaxOne, initState, popMin, findMin, entryLt, eraseEntry, searchFuel, potential,
    relevantNodes, reverse_graph, reverseNeighbors, allNodes, alookup, nodeDeg, exG,
    weight_pAB, Function.update_apply, List.dedup, predChain, chainFuel, argminFound,
    DispatchResult.allHospitals, calculate_route_metrics, segContribution, lookupEdge,
    zeroMetrics, addMetrics]

/-! Claim theorems. -/

/-- C9: for every edge payload, the composite relaxation weight equals
`w_T·time + w_R·(v_net·risk.network + v_gps·risk.gps + v_data·risk.data) + w_C·cost`
with the fixed coefficients `w_T = 0.619`, `w_R = 0.284`, `w_C = 0.096`,
`v_net = 0.623`, `v_gps = 0.239`, `v_data = 0.137`. -/
theorem c9_composite_weight_formula (a : EdgeAttr) :
    calculate_composite_weight a =
      619/1000 * a.time +
        284/1000 * (623/1000 * a.it_risk.network + 239/1000 * a.it_risk.gps +
          137/1000 * a.it_risk.data) +
        96/1000 * a.cost ∧
    w_T = 619/1000 ∧ w_R = 284/1000 ∧ w_C = 96/1000 ∧
    v_net = 623/1000 ∧ v_gps = 239/1000 ∧ v_data = 137/1000 :=
  ⟨rfl, rfl, rfl, rfl, rfl, rfl, rfl⟩

/-- Witness for C9 at a concrete payload. -/
theorem c9_composite_weight_formula_witness :
    calculate_composite_weight pAB =
      619/1000 * pAB.time +
        284/1000 * (623/1000 * pAB.it_risk.network + 239/1000 * pAB.it_risk.gps +
          137/1000 * pAB.it_risk.data) +
        96/1000 * pAB.cost :=
  (c9_composite_weight_formula pAB).1

/-- C8: a consecutive route pair whose forward edge is missing contributes the
all-zero record to the accumulators, the aggregation simply continues with the
rest of the route, and every route's metrics are the total fold of the
per-segment contributions (so the computation is total and never aborts). -/
theorem c8_missing_edge_contributes_zero (G : Graph) (u v : String) (rest : List String)
    (hmiss : lookupEdge G u v = none) :
    segContribution G u v = zeroMetrics ∧
    calculate_route_metrics G (u :: v :: rest) = calculate_route_metrics G (v :: rest) ∧
    ∀ route : List String, calculate_route_metrics G route =
      ((route.zip route.tail).map (fun q => segContribution G q.1 q.2)).foldr
        addMetrics zeroMetrics := by
  have hz : segContribution G u v = zeroMetrics := by
    unfold segContribution
    rw [hmiss]
  refine ⟨hz, ?_, calculate_route_metrics_eq_fold G⟩
  show addMetrics (segContribution G u v) (calculate_route_metrics G (v :: rest)) = _
  rw [hz]
  unfold addMetrics zeroMetrics
  simp

/-- Witness for C8 on the example graph, where B → A is absent. -/
theorem c8_missing_edge_contributes_zero_witness :
    segContribution exG "B" "A" = zeroMetrics ∧
    calculate_route_metrics exG ["B", "A"] = calculate_route_metrics exG ["A"] ∧
    ∀ route : List String, calculate_route_metrics exG route =
      ((route.zip route.tail).map (fun q => segContribution exG q.1 q.2)).foldr
        addMetrics zeroMetrics :=
  c8_missing_edge_contributes_zero exG "B" "A" [] (by decide)

/-- C5: for a well-formed input graph the reversed graph has edge `(v → u)`
with payload `P` exactly when the graph has `(u → v)` with payload `P` (hence
no other edges), it is itself well-formed (each reversed pair occurs exactly
once), and every derived vertex is a key of the reversed adjacency map. -/
theorem c5_reverse_graph_correct (G : Graph) (hWF : GraphWF G) :
    (∀ u v : String, lookupEdge (reverse_graph G) v u = lookupEdge G u v) ∧
    GraphWF (reverse_graph G) ∧
    (∀ v ∈ allNodes G, v ∈ (reverse_graph G).map Prod.fst) := by
  refine ⟨fun u v => reverse_graph_lookupEdge hWF.1 u v, reverse_graph_WF hWF, ?_⟩
  intro v hv
  rw [reverse_graph_keys]
  exact hv

/-- Witness for C5 on the example graph. -/
theorem c5_reverse_graph_correct_witness :
    lookupEdge (reverse_graph exG) "B" "A" = lookupEdge exG "A" "B" :=
  (c5_reverse_graph_correct exG ⟨by decide, by decide⟩).1 "A" "B"

/-- C7: the dispatcher is deterministic (it is a pure function of its inputs),
and the queue pop is fully deterministic: the popped entry has minimal
priority, and among entries sharing that priority the lexicographically
smallest node identifier is popped. -/
theorem c7_deterministic_and_lex_tie (G : Graph) (destination : String)
    (hospitals : List String) :
    (∀ r1 r2 : DispatchResult, r1 = find_optimal_dispatch G destination hospitals →
      r2 = find_optimal_dispatch G destination hospitals → r1 = r2) ∧
    (∀ (Q : List (ℚ × String)) (e : ℚ × String) (rest : List (ℚ × String)),
      popMin Q = some (e, rest) →
      ∀ x ∈ Q, e.1 < x.1 ∨ (e.1 = x.1 ∧ ¬ x.2 < e.2)) := by
  constructor
  · intro r1 r2 h1 h2
    rw [h1, h2]
  · intro Q e rest hpop x hx
    have hnot := (popMin_spec hpop).2.2 x hx
    rcases lt_trichotomy e.1 x.1 with h | h | h
    · exact Or.inl h
    · refine Or.inr ⟨h, ?_⟩
      intro hlt
      exact hnot (Or.inr ⟨h.symm, hlt⟩)
    · exact absurd (Or.inl h) hnot

/-- Witness for C7: popping `[(1, b), (1, a)]` returns the entry with the
lexicographically smaller identifier. -/
theorem c7_deterministic_and_lex_tie_witness :
    (1 : ℚ) < 1 ∨ ((1 : ℚ) = 1 ∧ ¬ ("b" : String) < "a") := by
  have hab : ("a" : String) < "b" := by
    have hl : (['a'] : List Char) < ['b'] := by decide
    simpa using hl
  exact (c7_deterministic_and_lex_tie exG "B" ["A"]).2
    [((1 : ℚ), "b"), ((1 : ℚ), "a")] ((1 : ℚ), "a") [((1 : ℚ), "b")]
    (by simp [popMin, findMin, entryLt, eraseEntry, hab]) ((1 : ℚ), "b")
    (List.mem_cons_self _ _)

/-- C6: with an empty candidates list, or when the search terminates with
every supplied candidate at infinite distance, `find_optimal_dispatch`
returns the explicit error variant (the embedding is a total function, so no
exception can occur). -/
theorem c6_no_reachable_error (G : Graph) (destination : String) (hospitals : List String)
    (h : hospitals = [] ∨ ∀ h2 ∈ hospitals,
      (dispatchSearch G destination hospitals).lam h2 = ⊤) :
    find_optimal_dispatch G destination hospitals = DispatchResult.error := by
  have hInv := dispatchSearch_invB G destination hospitals
  apply find_optimal_dispatch_of_no_found
  cases hfound : (dispatchSearch G destination hospitals).found with
  | nil => rfl
  | cons f fs =>
      exfalso
      have hspec := hInv.found_spec f (hfound ▸ List.mem_cons_self _ _)
      rcases h with h | h
      · rw [h] at hspec
        exact (List.not_mem_nil _) hspec.1
      · exact (hInv.visited_fin f.1 hspec.2.1) (h f.1 hspec.1)

/-- Witness for C6 with an empty candidate list. -/
theorem c6_no_reachable_error_witness :
    find_optimal_dispatch exG "B" [] = DispatchResult.error :=
  c6_no_reachable_error exG "B" [] (Or.inl rfl)

/-- C1 is false on the code (code bug): on the graph with single edge A → B,
destination B and candidate A, the selected candidate is A but the returned
route is `[B, A]` — it starts at the destination, not at the candidate,
because the source reverses the predecessor chain before returning. -/
theorem c1_route_reversed_eval :
    (find_optimal_dispatch exG "B" ["A"]).selectedNode = some "A" ∧
    (find_optimal_dispatch exG "B" ["A"]).optimalRoute = some ["B", "A"] ∧
    ("B" : String) ≠ "A" :=
  ⟨exG_selected, exG_route, by decide⟩

/-- C2 is false on the code (code bug): replaying the returned (reversed)
route `[B, A]` against the forward graph finds no edges, so all decomposed
metrics are zero and the reconciliation sum is 0, while the engine's distance
is 249679/250000 ≠ 0 (relative error 1, far beyond 1e-9). -/
theorem c2_reconciliation_fails_eval :
    (find_optimal_dispatch exG "B" ["A"]).optimalCost =
      some ((249679/250000 : ℚ) : WithTop ℚ) ∧
    (find_optimal_dispatch exG "B" ["A"]).allHospitals =
      [("A", { lamH := ((249679/250000 : ℚ) : WithTop ℚ), route := ["B", "A"]
             , metrics := zeroMetrics })] ∧
    w_T * zeroMetrics.travel_time +
      (zeroMetrics.it_network + zeroMetrics.it_gps + zeroMetrics.it_data) +
      w_C * zeroMetrics.total_cost = 0 ∧
    (249679/250000 : ℚ) ≠ 0 := by
  refine ⟨exG_cost, exG_details, ?_, by norm_num⟩
  norm_num [zeroMetrics, w_T, w_C]

/-- C3: after the search loop terminates (queue drained), for every node
reachable from the destination in the reversed graph the recorded `λ` is the
cost of some walk and a lower bound of every walk cost — the true minimum
composite cost — and every unreachable node keeps `λ = ∞` and
`predecessor = None`; for any input graph with non-negative edge payloads. -/
theorem c3_dijkstra_correct (G : Graph) (destination : String) (hospitals : List String)
    (hnn : NonnegGraph G) :
    ∀ v : String,
      (ReachableR (reverse_graph G) destination v →
        (∃ c : ℚ, ReachesAt (reverse_graph G) destination v c ∧
          (dispatchSearch G destination hospitals).lam v = ((c : ℚ) : WithTop ℚ)) ∧
        (∀ c : ℚ, ReachesAt (reverse_graph G) destination v c →
          (dispatchSearch G destination hospitals).lam v ≤ ((c : ℚ) : WithTop ℚ))) ∧
      (¬ ReachableR (reverse_graph G) destination v →
        (dispatchSearch G destination hospitals).lam v = ⊤ ∧
        (dispatchSearch G destination hospitals).pred v = none) := by
  intro v
  have hw := reverse_weight_nonneg hnn
  have hInv := dispatchSearch_invB G destination hospitals
  have hq := dispatchSearch_queue_nil G destination hospitals
  have hvm := dispatchSearch_visitedMin G destination hospitals hw
  constructor
  · intro hreach
    obtain ⟨c0, hc0⟩ := hreach
    have hvis : v ∈ (dispatchSearch G destination hospitals).visited :=
      final_reachable_visited hInv hq hc0
    have hfin := hInv.visited_fin v hvis
    obtain ⟨q, hq2⟩ := WithTop.ne_top_iff_exists.mp hfin
    exact ⟨⟨q, hInv.lam_path v q hq2.symm, hq2.symm⟩, fun c hc => hvm v hvis c hc⟩
  · intro hnr
    have hfin : (dispatchSearch G destination hospitals).lam v = ⊤ := by
      by_contra hne
      obtain ⟨q, hq2⟩ := WithTop.ne_top_iff_exists.mp hne
      exact hnr ⟨q, hInv.lam_path v q hq2.symm⟩
    refine ⟨hfin, ?_⟩
    by_contra hpred
    exact (hInv.pred_fin v hpred) hfin

/-- Witness for C3: on the example graph, the final `λ` at the reachable
candidate A is bounded by the cost of the explicit walk B → A. -/
theorem c3_dijkstra_correct_witness :
    (dispatchSearch exG "B" ["A"]).lam "A" ≤
      (((0 : ℚ) + calculate_composite_weight pAB : ℚ) : WithTop ℚ) := by
  have hedge : EdgeIn (reverse_graph exG) "B" "A" pAB := ⟨[("A", pAB)], by decide, by simp⟩
  have hpath : ReachesAt (reverse_graph exG) "B" "A" (0 + calculate_composite_weight pAB) :=
    ReachesAt.step ReachesAt.base hedge
  exact (((c3_dijkstra_correct exG "B" ["A"] (by decide)) "A").1 ⟨_, hpath⟩).2 _ hpath

/-- C4: when the dispatcher returns a success, the selected candidate is one
of the recorded (found) candidates with recorded distance ≤ every recorded
distance; every candidate reachable in the reversed graph is recorded; the
selected candidate is the *first* recorded candidate attaining the minimum
(the found list is appended in visitation order, so ties go to the candidate
the engine visited first); and the result is invariant under reordering of
the input candidates list (only membership matters). -/
theorem c4_selection_correct (G : Graph) (destination : String) (hospitals : List String)
    (hStar : String) (cStar : WithTop ℚ) (r : List String)
    (dts : List (String × HospitalDetail)) (pr : String → Option String)
    (lm : String → WithTop ℚ)
    (hok : find_optimal_dispatch G destination hospitals =
      DispatchResult.ok hStar cStar r dts pr lm) :
    ((hStar, cStar) ∈ (dispatchSearch G destination hospitals).found ∧
      ∀ x ∈ (dispatchSearch G destination hospitals).found, cStar ≤ x.2) ∧
    (∀ h2 ∈ hospitals, ReachableR (reverse_graph G) destination h2 →
      ∃ c, (h2, c) ∈ (dispatchSearch G destination hospitals).found) ∧
    (∃ l1 l2, (dispatchSearch G destination hospitals).found =
      l1 ++ (hStar, cStar) :: l2 ∧ ∀ x ∈ l1, cStar < x.2) ∧
    (∀ hospitals2 : List String, (∀ h2, h2 ∈ hospitals ↔ h2 ∈ hospitals2) →
      find_optimal_dispatch G destination hospitals =
        find_optimal_dispatch G destination hospitals2) := by
  obtain ⟨f, fs, hfound, hh, hc⟩ := find_ok_inversion hok
  have harg : (hStar, cStar) = argminFound f fs := by
    rw [hh, hc]
  have hInv := dispatchSearch_invB G destination hospitals
  have hq := dispatchSearch_queue_nil G destination hospitals
  refine ⟨⟨?_, ?_⟩, ?_, ?_, ?_⟩
  · rw [hfound, harg]
    exact argminFound_mem fs f
  · intro x hx
    rw [hfound] at hx
    rw [hc]
    exact argminFound_le fs f x hx
  · intro h2 hmem hreach
    obtain ⟨c0, hc0⟩ := hreach
    have hvis : h2 ∈ (dispatchSearch G destination hospitals).visited :=
      final_reachable_visited hInv hq hc0
    have hfk := hInv.visited_found h2 hvis hmem
    obtain ⟨x, hx, hx1⟩ := List.mem_map.mp hfk
    refine ⟨x.2, ?_⟩
    have : (h2, x.2) = x := Prod.ext hx1.symm rfl
    rw [this]
    exact hx
  · obtain ⟨l1, l2, hdec, hlt⟩ := argminFound_first fs f
    refine ⟨l1, l2, ?_, ?_⟩
    · rw [hfound, hdec, harg]
    · intro x hx
      rw [hc]
      exact hlt x hx
  · intro hospitals2 hH
    exact find_optimal_dispatch_hospitals_equiv hH

/-- Witness for C4 on the example run: the selected cost bounds the recorded
cost of the concrete found candidate A. -/
theorem c4_selection_correct_witness :
    (argminFound ("A", ((249679/250000 : ℚ) : WithTop ℚ)) []).2 ≤
      ((249679/250000 : ℚ) : WithTop ℚ) := by
  have hmem : ("A", ((249679/250000 : ℚ) : WithTop ℚ)) ∈
      (dispatchSearch exG "B" ["A"]).found := by
    rw [exG_found]
    exact List.mem_cons_self _ _
  exact (c4_selection_correct exG "B" ["A"] _ _ _ _ _ _
    (find_optimal_dispatch_of_found exG_found)).1.2 _ hmem

/-- C10: when the destination itself is among the candidates and all edge
payloads are non-negative, the dispatcher selects the destination, with
composite cost exactly 0 and the single-node route `[destination]`, whatever
other candidates are supplied. -/
theorem c10_destination_selected (G : Graph) (destination : String)
    (hospitals : List String) (hnn : NonnegGraph G) (hd : destination ∈ hospitals) :
    ∃ (dts : List (String × HospitalDetail)) (pr : String → Option String)
      (lm : String → WithTop ℚ),
      find_optimal_dispatch G destination hospitals =
        DispatchResult.ok destination ((0 : ℚ) : WithTop ℚ) [destination] dts pr lm := by
  have hw := reverse_weight_nonneg hnn
  have hfpos : 0 < searchFuel (reverse_graph G) destination := by
    unfold searchFuel potential
    have hq1 : (initState destination).queue.length = 1 := by simp [initState]
    omega
  obtain ⟨n, hn⟩ : ∃ n, searchFuel (reverse_graph G) destination = n + 1 :=
    ⟨searchFuel (reverse_graph G) destination - 1, by omega⟩
  have hpop := popMin_init destination
  have hsearch : dispatchSearch G destination hospitals =
      dijkstraLoop (reverse_graph G) hospitals n
        (dijkstraStep (reverse_graph G) hospitals (initState destination) 0 destination []) := by
    unfold dispatchSearch
    rw [hn, dijkstraLoop_succ _ _ n _ hpop]
  have hInv0 := initState_invB (reverse_graph G) destination hospitals
  have hInv1 := dijkstraStep_invB hInv0 hpop
  have hdest0 : DestFixed destination (initState destination) := ⟨by simp [initState], rfl⟩
  have hdest1 := dijkstraStep_dest hInv0 hw hpop hdest0
  have hS1found : (dijkstraStep (reverse_graph G) hospitals (initState destination)
      0 destination []).found = [(destination, ((0 : ℚ) : WithTop ℚ))] := by
    unfold dijkstraStep
    have hguard : ¬(((0 : ℚ) : WithTop ℚ) > (initState destination).lam destination ∨
        destination ∈ (initState destination).visited) := by
      simp [initState]
    rw [if_neg hguard,
      if_pos ⟨hd, by simp [initState]⟩, relax_found_eq]
    simp [initState]
  have hInvF := dijkstraLoop_invB n _ hInv1
  have hdestF := dijkstraLoop_dest hw n _ hInv1 hdest1
  obtain ⟨t, ht0⟩ : ∃ t2, (dijkstraLoop (reverse_graph G) hospitals n
      (dijkstraStep (reverse_graph G) hospitals (initState destination)
        0 destination [])).found =
      (dijkstraStep (reverse_graph G) hospitals (initState destination)
        0 destination []).found ++ t2 :=
    dijkstraLoop_found_append n _
  rw [hS1found] at ht0
  have ht : (dijkstraLoop (reverse_graph G) hospitals n
      (dijkstraStep (reverse_graph G) hospitals (initState destination)
        0 destination [])).found = (destination, ((0 : ℚ) : WithTop ℚ)) :: t := by
    rw [ht0]
    rfl
  have hmin : ∀ y ∈ t, ¬ y.2 < ((0 : ℚ) : WithTop ℚ) := by
    intro y hy
    have hyfound : y ∈ (dijkstraLoop (reverse_graph G) hospitals n
        (dijkstraStep (reverse_graph G) hospitals (initState destination)
          0 destination [])).found := by
      rw [ht]
      exact List.mem_cons_of_mem _ hy
    obtain ⟨hyH, hyvis, hylam⟩ := hInvF.found_spec y hyfound
    have hyfin := hInvF.visited_fin y.1 hyvis
    obtain ⟨q, hq⟩ := WithTop.ne_top_iff_exists.mp hyfin
    have hpath := hInvF.lam_path y.1 q hq.symm
    have hqnn : 0 ≤ q := reachesAt_nonneg hw hpath
    rw [hylam, ← hq]
    intro hlt
    have hneg : q < 0 := by exact_mod_cast hlt
    linarith
  have hargmin : argminFound (destination, ((0 : ℚ) : WithTop ℚ)) t =
      (destination, ((0 : ℚ) : WithTop ℚ)) :=
    argminFound_head_of_min t _ hmin
  have hfound2 : (dispatchSearch G destination hospitals).found =
      (destination, ((0 : ℚ) : WithTop ℚ)) :: t := by
    rw [hsearch]
    exact ht
  have hroute : (predChain (dispatchSearch G destination hospitals).pred (chainFuel G)
      destination).reverse = [destination] := by
    have hpredd : (dispatchSearch G destination hospitals).pred destination = none := by
      rw [hsearch]
      exact hdestF.2
    show (predChain (dispatchSearch G destination hospitals).pred
      ((allNodes G).length + 1) destination).reverse = [destination]
    rw [predChain_none hpredd]
    rfl
  have hmain := find_optimal_dispatch_of_found hfound2
  rw [hargmin] at hmain
  dsimp only at hmain
  rw [hroute] at hmain
  exact ⟨_, _, _, hmain⟩

/-- Witness for C10 on the example graph with the destination as candidate. -/
theorem c10_destination_selected_witness :
    ∃ (dts : List (String × HospitalDetail)) (pr : String → Option String)
      (lm : String → WithTop ℚ),
      find_optimal_dispatch exG "B" ["B"] =
        DispatchResult.ok "B" ((0 : ℚ) : WithTop ℚ) ["B"] dts pr lm :=
  c10_destination_selected exG "B" ["B"] (by decide) (List.mem_cons_self _ _)

end AmbulanceDispatch
